import Mathlib

/-!
Verification of the product-feed aggregation pipeline
(`src/lib/google-feed.ts` of the mdgc-website repository).

Shallow embedding conventions:
* a JavaScript string is a `List Char` (`Str`); string literals are injected
  with `str`; case conversion uses `Char.toUpper`/`Char.toLower`, which agree
  with JavaScript on the ASCII range the catalog data lives in;
* `undefined`/optional values are `Option`; JavaScript truthiness of a
  `string | undefined` value (`undefined` and `""` are falsy) is `jsTruthy`;
* a JavaScript `Map`/`Set` is an insertion-ordered association list / list,
  with `Map.set` replacing the value in place (keeping the entry position)
  and appending new keys at the end, exactly like the JS iteration order;
* `bigint` price amounts are `Int`; `minPrice : number` (which the code sets
  to `Infinity` as an "unset" sentinel) is `Option Int` with `none = Infinity`;
* inventory quantities (`parseFloat` results, JS numbers) are modelled as
  exact unnormalised fractions (`JNum`, interpreted into `Rat` by
  `JNum.toRat`); `parseFloat` is modelled on the decimal fragment the data
  uses (optional leading whitespace and sign, digits, optional fractional
  part); a string with no parsable numeric prefix is `none` (JS `NaN`).
-/

/-- JavaScript strings, modelled as lists of characters. -/
abbrev Str := List Char

/-- Inject a Lean string literal as a `Str`. -/
def str (s : String) : Str := s.data

/-- JavaScript truthiness of a `string | undefined` value:
`undefined` and the empty string are falsy. -/
def jsTruthy : Option Str → Bool
  | none => false
  | some s => !s.isEmpty

/-- Whitespace, for `String.prototype.trim` (the subset occurring in the data). -/
def isWS (c : Char) : Bool :=
  c = ' ' || c = '\t' || c = '\n' || c = '\r'

/-- Strip leading whitespace. -/
def trimLeft (s : Str) : Str := s.dropWhile isWS

/-- Strip trailing whitespace. -/
def trimRight (s : Str) : Str := (s.reverse.dropWhile isWS).reverse

/-- Model of `String.prototype.trim`: strip whitespace from both ends. -/
def trim (s : Str) : Str := trimRight (trimLeft s)

/-- Model of `variantName.split(" - ")`: split on the literal three-character
separator, scanning left to right with non-overlapping matches, exactly like
`String.prototype.split` with a string separator. -/
def splitDash : Str → List Str
  | ' ' :: '-' :: ' ' :: rest => [] :: splitDash rest
  | c :: rest =>
    match splitDash rest with
    | [] => [[c]]
    | s :: ss => (c :: s) :: ss
  | [] => [[]]

/-- The first segment of `splitDash` (`parts[0]` in the source), computed
directly: everything up to the first occurrence of `" - "`. -/
def firstSegment : Str → Str
  | ' ' :: '-' :: ' ' :: _ => []
  | c :: rest => c :: firstSegment rest
  | [] => []

/-- Model of `baseName.charAt(0) + baseName.slice(1).toLowerCase()`. -/
def sentenceCase : Str → Str
  | [] => []
  | c :: rest => c :: rest.map Char.toLower

/-- Embedding of `extractBaseName` (google-feed.ts, lines 57-68): split on
`" - "`, take the first part, trim; if the result is entirely upper-case
(equal to its own upper-casing) and longer than one character, convert the
tail to lower case. -/
def extractBaseName (variantName : Str) : Str :=
  let baseName := trim ((splitDash variantName).headD [])
  if baseName = baseName.map Char.toUpper ∧ 1 < baseName.length then
    sentenceCase baseName
  else
    baseName

example : extractBaseName (str "MAVERICK") = str "Maverick" := by decide
example : extractBaseName (str "RURU - RURU - ATOMIC/PINK/171") = str "Ruru" := by decide
example : extractBaseName (str "Innova Destroyer") = str "Innova Destroyer" := by decide
example : extractBaseName (str "Envy") = str "Envy" := by decide
example : extractBaseName (str "Innova Destroyer - 170g Blue") = str "Innova Destroyer" := by decide

/-! ## JavaScript numbers and `parseFloat`

Inventory quantities are JS numbers produced by `parseFloat` and addition.
They are modelled as exact unnormalised fractions (`JNum`), whose value is
read off by `JNum.toRat`; every operation the code performs on quantities
(addition, sign tests) is exact on the rational value, so this is a faithful
exact-arithmetic model of the JS number computations involved. -/

/-- An exact unnormalised fraction `num / den`; every `JNum` the pipeline
builds has a positive power-of-ten denominator. -/
structure JNum where
  num : Int
  den : Nat
deriving DecidableEq, Repr

/-- The rational value of a `JNum`. -/
def JNum.toRat (q : JNum) : Rat := (q.num : Rat) / (q.den : Rat)

/-- The number zero. -/
def JNum.zero : JNum := ⟨0, 1⟩

/-- Exact addition of fractions. -/
def JNum.add (a b : JNum) : JNum :=
  ⟨a.num * b.den + b.num * a.den, a.den * b.den⟩

/-- The test `q > 0` on the rational value (valid since denominators are
never zero: the sign of `num * den` is the sign of the value). -/
def JNum.isPos (q : JNum) : Bool := 0 < q.num * q.den

/-- Decimal digit value of an ASCII digit character, accumulated over a list. -/
def digitsToNat (ds : Str) : Nat :=
  ds.foldl (fun a c => 10 * a + (c.toNat - 48)) 0

/-- An optional leading sign: the signum and the remainder. -/
def parseSign : Str → Int × Str
  | '-' :: r => (-1, r)
  | '+' :: r => (1, r)
  | s => (1, s)

/-- The fraction digits after an optional decimal point. -/
def parseFrac : Str → Str
  | '.' :: r => r.takeWhile Char.isDigit
  | _ => []

/-- Model of `parseFloat` on the decimal fragment used by the inventory data:
skip leading whitespace, optional sign, integer digits, optional `.` and
fraction digits; anything after the parsed prefix is ignored.  Returns `none`
(JS `NaN`) when no digit is found. -/
def jsParseFloat (s : Str) : Option JNum :=
  let sr := parseSign (s.dropWhile isWS)
  let intDigits := sr.2.takeWhile Char.isDigit
  let fracDigits := parseFrac (sr.2.dropWhile Char.isDigit)
  if intDigits.isEmpty ∧ fracDigits.isEmpty then none
  else
    some ⟨sr.1 * (digitsToNat intDigits * 10 ^ fracDigits.length
            + digitsToNat fracDigits), 10 ^ fracDigits.length⟩

/-- Model of `parseFloat(count.quantity ?? "0") || 0`: a missing quantity
string parses as `"0"`, and a parse failure (`NaN`, which is falsy)
contributes `0`. -/
def parsedQuantity (quantity : Option Str) : JNum :=
  match jsParseFloat (quantity.getD (str "0")) with
  | none => JNum.zero
  | some v => v

example : parsedQuantity (some (str "5")) = ⟨5, 1⟩ := by decide
example : parsedQuantity (some (str "2.5")) = ⟨25, 10⟩ := by decide
example : (⟨25, 10⟩ : JNum).toRat = 5 / 2 := by norm_num [JNum.toRat]
example : parsedQuantity (some (str "abc")) = JNum.zero := by decide
example : parsedQuantity none = ⟨0, 1⟩ := by decide
example : parsedQuantity (some (str "-3")) = ⟨-3, 1⟩ := by decide

/-! ## Insertion-ordered maps and sets (JavaScript `Map` / `Set`) -/

/-- Insertion-ordered association list modelling a JavaScript `Map` with
string keys. -/
abbrev JMap (α : Type) := List (Str × α)

/-- Model of `Map.prototype.get`. -/
def mapGet {α : Type} (m : JMap α) (k : Str) : Option α :=
  (m.find? (fun e => e.1 = k)).map (·.2)

/-- Model of `Map.prototype.set`: replace in place if the key exists
(keeping its position in iteration order), otherwise append. -/
def mapSet {α : Type} : JMap α → Str → α → JMap α
  | [], k, v => [(k, v)]
  | e :: m, k, v => if e.1 = k then (k, v) :: m else e :: mapSet m k v

/-- Model of `Set.prototype.add` for a string set. -/
def setAdd (s : List Str) (k : Str) : List Str :=
  if k ∈ s then s else s ++ [k]

/-! ## Data model (the fields of the Square SDK types the code reads) -/

/-- The `imageData` payload of an `IMAGE` catalog object. -/
structure ImageData where
  url : Option Str
deriving DecidableEq

/-- A category reference (`parentCategory`, `reportingCategory`, or an entry
of `itemData.categories`): an object carrying an optional `id`. -/
structure CategoryRef where
  id : Option Str
deriving DecidableEq

/-- The `categoryData` payload of a `CATEGORY` catalog object. -/
structure CategoryData where
  name : Option Str
  parentCategory : Option CategoryRef
deriving DecidableEq

/-- A Square `Money` value; `amount` is a `bigint`. -/
structure Money where
  amount : Option Int
  currency : Option Str
deriving DecidableEq

/-- The `itemVariationData` payload of a variation. -/
structure ItemVariationData where
  name : Option Str
  priceMoney : Option Money
deriving DecidableEq

/-- A variation record nested inside `itemData.variations`. -/
structure CatalogVariation where
  id : Option Str
  itemVariationData : Option ItemVariationData
deriving DecidableEq

/-- The `itemData` payload of an `ITEM` catalog object. -/
structure ItemData where
  name : Option Str
  description : Option Str
  isArchived : Bool
  productType : Option Str
  variations : Option (List CatalogVariation)
  imageIds : Option (List Str)
  reportingCategory : Option CategoryRef
  categories : Option (List CategoryRef)
  ecomUri : Option Str
deriving DecidableEq

/-- A heterogeneous Square catalog object, discriminated by `type`. -/
structure CatalogObject where
  type : Str
  id : Option Str
  isDeleted : Bool
  imageData : Option ImageData
  categoryData : Option CategoryData
  itemData : Option ItemData
deriving DecidableEq

/-- One inventory-count row (one per object and stock location). -/
structure InventoryCount where
  catalogObjectId : Option Str
  quantity : Option Str
deriving DecidableEq

/-- The snapshot handed to the pipeline
(`src/data/square-inventory.json`). -/
structure SquareInventoryData where
  fetchedAt : Str
  catalogObjects : List CatalogObject
  inventoryCounts : List InventoryCount
deriving DecidableEq

/-- An aggregated item; `minPrice : number` uses `none` for the `Infinity`
"unset" sentinel, and `totalQuantity` is an exact `JNum`. -/
structure AggregatedItem where
  itemId : Str
  name : Str
  description : Str
  productUrl : Option Str
  imageUrl : Option Str
  category : Option Str
  brand : Option Str
  minPrice : Option Int
  currency : Str
  totalQuantity : JNum
deriving DecidableEq

/-- Feed configuration. -/
structure FeedConfig where
  defaultBrand : Option Str

/-! ## `buildLookups` (google-feed.ts, lines 73-123) -/

/-- The four lookup structures built by `buildLookups`. -/
structure Lookups where
  images : JMap Str
  categories : JMap Str
  categoryParents : JMap (Option Str)
  brandCategoryIds : List Str
  inventory : JMap JNum

/-- The image index: `obj.type === "IMAGE" && obj.id && obj.imageData?.url`. -/
def buildImages (objs : List CatalogObject) : JMap Str :=
  objs.foldl
    (fun m obj =>
      match obj.imageData.bind (·.url) with
      | some url =>
        if obj.type = str "IMAGE" ∧ jsTruthy obj.id ∧ ¬url.isEmpty then
          mapSet m (obj.id.getD []) url
        else m
      | none => m)
    []

/-- The category name and parent indices, built in one pass:
`obj.type === "CATEGORY" && obj.id && obj.categoryData?.name`. -/
def buildCategories (objs : List CatalogObject) :
    JMap Str × JMap (Option Str) :=
  objs.foldl
    (fun (acc : JMap Str × JMap (Option Str)) obj =>
      match obj.categoryData with
      | some cd =>
        match cd.name with
        | some nm =>
          if obj.type = str "CATEGORY" ∧ jsTruthy obj.id ∧ ¬nm.isEmpty then
            (mapSet acc.1 (obj.id.getD []) nm,
             mapSet acc.2 (obj.id.getD []) (cd.parentCategory.bind (·.id)))
          else acc
        | none => acc
      | none => acc)
    ([], [])

/-- The first map entry whose name is the literal `"BRANDS"` (the
`for ([id, name] of categories)` loop with `break`). -/
def findBrandsId (categories : JMap Str) : Option Str :=
  (categories.find? (fun e => e.2 = str "BRANDS")).map (·.1)

/-- The set of ids of categories whose recorded parent is the `"BRANDS"`
category (empty when there is no such category). -/
def buildBrandCategoryIds (categories : JMap Str)
    (categoryParents : JMap (Option Str)) : List Str :=
  match findBrandsId categories with
  | some bid =>
    if ¬bid.isEmpty then
      categoryParents.foldl
        (fun s e => if e.2 = some bid then setAdd s e.1 else s) []
    else []
  | none => []

/-- One inventory row folded into the index: rows with a falsy
`catalogObjectId` are skipped, otherwise the parsed quantity is added to the
existing total (`existing` defaulting to 0). -/
def invStep (m : JMap JNum) (count : InventoryCount) : JMap JNum :=
  if jsTruthy count.catalogObjectId then
    mapSet m (count.catalogObjectId.getD [])
      (((mapGet m (count.catalogObjectId.getD [])).getD JNum.zero).add
        (parsedQuantity count.quantity))
  else m

/-- The inventory index: quantities summed across rows sharing a
`catalogObjectId`. -/
def buildInventory (counts : List InventoryCount) : JMap JNum :=
  counts.foldl invStep []

/-- Embedding of `buildLookups` (google-feed.ts, lines 73-123). -/
def buildLookups (data : SquareInventoryData) : Lookups :=
  let images := buildImages data.catalogObjects
  let cats := buildCategories data.catalogObjects
  { images := images
    categories := cats.1
    categoryParents := cats.2
    brandCategoryIds := buildBrandCategoryIds cats.1 cats.2
    inventory := buildInventory data.inventoryCounts }

/-! ## `aggregateItems` (google-feed.ts, lines 128-213) -/

/-- The aggregation map (`itemMap` in the source). -/
abbrev ItemMap := JMap AggregatedItem

/-- The item-level values the loop body computes once per catalog object
before iterating over its variations. -/
structure ItemCtx where
  objId : Str
  itemData : ItemData
  imageUrl : Option Str
  category : Option Str
  brand : Option Str
  productUrl : Option Str
deriving DecidableEq

/-- The `brand` loop (google-feed.ts, lines 151-159): scan the item's
category references; at the first one whose `id` is truthy and belongs to
`brandCategoryIds`, look up its name and stop. -/
def computeBrand (categories : JMap Str) (brandCategoryIds : List Str) :
    List CategoryRef → Option Str
  | [] => none
  | cat :: rest =>
    match cat.id with
    | some cid =>
      if ¬cid.isEmpty ∧ cid ∈ brandCategoryIds then mapGet categories cid
      else computeBrand categories brandCategoryIds rest
    | none => computeBrand categories brandCategoryIds rest

/-- The image resolution (line 143-144): first entry of `imageIds`, looked
up in the image index. -/
def resolveImageUrl (images : JMap Str) (itemData : ItemData) : Option Str :=
  match itemData.imageIds.getD [] with
  | [] => none
  | imgId :: _ => mapGet images imgId

/-- The category resolution (lines 147-149):
`itemData.reportingCategory?.id ? categories.get(...) : undefined`. -/
def resolveCategory (categories : JMap Str) (itemData : ItemData) :
    Option Str :=
  match itemData.reportingCategory.bind (·.id) with
  | some rid => if ¬rid.isEmpty then mapGet categories rid else none
  | none => none

/-- The per-object context, computed by lines 142-162. -/
def itemCtx (lk : Lookups) (objId : Str) (itemData : ItemData) : ItemCtx :=
  { objId := objId
    itemData := itemData
    imageUrl := resolveImageUrl lk.images itemData
    category := resolveCategory lk.categories itemData
    brand := computeBrand lk.categories lk.brandCategoryIds
      (itemData.categories.getD [])
    productUrl := itemData.ecomUri }

/-- The per-variation numbers (lines 169-173): quantity from the inventory
index (default 0), price from `priceMoney?.amount` (`Number(amount)` when
the amount is truthy, i.e. present and non-zero, else 0), currency from
`priceMoney?.currency ?? "AUD"`. -/
def varCalc (lk : Lookups) (vid : Str) (varData : ItemVariationData) :
    JNum × Int × Str :=
  let quantity := (mapGet lk.inventory vid).getD JNum.zero
  let price : Int :=
    match varData.priceMoney.bind (·.amount) with
    | some a => if a ≠ 0 then a else 0
    | none => 0
  let currency := (varData.priceMoney.bind (·.currency)).getD (str "AUD")
  (quantity, price, currency)

/-- Model of `price < existing.minPrice` with `none` the `Infinity`
sentinel (every finite price is `< Infinity`). -/
def ltMinPrice (price : Int) : Option Int → Prop
  | none => True
  | some v => price < v

instance (price : Int) (m : Option Int) : Decidable (ltMinPrice price m) := by
  cases m <;> simp [ltMinPrice] <;> infer_instance

/-- The fold step for an already-seen item id (lines 177-188). -/
def updateEntry (existing : AggregatedItem) (quantity : JNum) (price : Int)
    (currency : Str) (productUrl imageUrl : Option Str) : AggregatedItem :=
  let e1 := { existing with
    totalQuantity := existing.totalQuantity.add quantity }
  let e2 :=
    if 0 < price ∧ ltMinPrice price e1.minPrice then
      { e1 with minPrice := some price, currency := currency }
    else e1
  let e3 :=
    if ¬jsTruthy e2.productUrl ∧ jsTruthy productUrl then
      { e2 with productUrl := productUrl }
    else e2
  if ¬jsTruthy e3.imageUrl ∧ jsTruthy imageUrl then
    { e3 with imageUrl := imageUrl }
  else e3

/-- The `itemData.name`-to-string coercion a template literal performs:
`undefined` prints as the string `"undefined"`. -/
def tmplStr (s : Option Str) : Str := s.getD (str "undefined")

/-- The working name built for the first variation (lines 190-193):
the template literal when the variation name is truthy, else
`itemData.name ?? ""`. -/
def jsFullName (itemData : ItemData) (varData : ItemVariationData) : Str :=
  match varData.name with
  | some n =>
    if ¬n.isEmpty then tmplStr itemData.name ++ str " - " ++ n
    else itemData.name.getD []
  | none => itemData.name.getD []

/-- The entry created for the first processed variation of an item
(lines 189-206); `price || Infinity` keeps any non-zero price and turns a
zero price into the sentinel. -/
def initEntry (ctx : ItemCtx) (varData : ItemVariationData) (quantity : JNum)
    (price : Int) (currency : Str) : AggregatedItem :=
  { itemId := ctx.objId
    name := extractBaseName (jsFullName ctx.itemData varData)
    description := ctx.itemData.description.getD []
    productUrl := ctx.productUrl
    imageUrl := ctx.imageUrl
    category := ctx.category
    brand := ctx.brand
    minPrice := if price ≠ 0 then some price else none
    currency := currency
    totalQuantity := quantity }

/-- The body of the variation loop (lines 165-208): skip a variation whose
`id` or `itemVariationData` is falsy, otherwise update or create the map
entry for the item id. -/
def processVariation (lk : Lookups) (ctx : ItemCtx) (m : ItemMap)
    (variation : CatalogVariation) : ItemMap :=
  match variation.id, variation.itemVariationData with
  | some vid, some varData =>
    if vid.isEmpty then m
    else
      let c := varCalc lk vid varData
      match mapGet m ctx.objId with
      | some existing =>
        mapSet m ctx.objId
          (updateEntry existing c.1 c.2.1 c.2.2 ctx.productUrl ctx.imageUrl)
      | none =>
        mapSet m ctx.objId (initEntry ctx varData c.1 c.2.1 c.2.2)
  | _, _ => m

/-- The body of the object loop (lines 132-209): eligibility guards, then
the per-object context and the variation loop. -/
def processObject (lk : Lookups) (m : ItemMap) (obj : CatalogObject) :
    ItemMap :=
  match obj.id, obj.itemData with
  | some objId, some itemData =>
    if obj.type = str "ITEM" ∧ ¬objId.isEmpty then
      if obj.isDeleted ∨ itemData.isArchived then m
      else if itemData.productType ≠ some (str "REGULAR") then m
      else
        let variations := itemData.variations.getD []
        if variations.isEmpty then m
        else variations.foldl (processVariation lk (itemCtx lk objId itemData)) m
    else m
  | _, _ => m

/-- The aggregation map after the whole object loop. -/
def itemMapOf (data : SquareInventoryData) : ItemMap :=
  data.catalogObjects.foldl (processObject (buildLookups data)) []

/-- Model of `item.minPrice < Infinity`: every finite number is, only the
sentinel is not. -/
def finitePrice (m : Option Int) : Bool := m.isSome

/-- Embedding of `aggregateItems` (google-feed.ts, lines 128-213):
fold all catalog objects into the aggregation map, then keep the entries
with a finite `minPrice`, in insertion order. -/
def aggregateItems (data : SquareInventoryData) : List AggregatedItem :=
  ((itemMapOf data).map (·.2)).filter (fun item => finitePrice item.minPrice)

/-! ## `toGoogleProduct` and the TSV encoder (google-feed.ts, lines 218-303) -/

/-- An output row in Google
format; optional fields are `undefined`-able. -/
structure GoogleProduct where
  id : Str
  title : Str
  description : Str
  link : Str
  image_link : Str
  availability : Str
  price : Str
  condition : Str
  brand : Option Str
  mpn : Option Str
  product_type : Option Str
deriving DecidableEq

/-- Decimal digits of a natural number. -/
def natToDec (n : Nat) : Str := Nat.toDigits 10 n

/-- Two decimal digits, zero-padded. -/
def pad2 (n : Nat) : Str := if n < 10 then '0' :: natToDec n else natToDec n

/-- Model of `(cents / 100).toFixed(2)` for an exact integer number of
minor units (floating-point numbers are modelled as exact rationals; for an
integer amount of cents the JS computation is exact and needs no rounding). -/
def centsToFixed2 (cents : Int) : Str :=
  let a := cents.natAbs
  let s := natToDec (a / 100) ++ str "." ++ pad2 (a % 100)
  if cents < 0 then '-' :: s else s

example : centsToFixed2 2200 = str "22.00" := by decide
example : centsToFixed2 1505 = str "15.05" := by decide
example : centsToFixed2 0 = str "0.00" := by decide
example : centsToFixed2 (-5) = str "-0.05" := by decide

/-- The price string of line 223: `(item.minPrice / 100).toFixed(2)`;
`Infinity.toFixed(2)` is the string `"Infinity"`. -/
def priceValueStr (minPrice : Option Int) : Str :=
  match minPrice with
  | some n => centsToFixed2 n
  | none => str "Infinity"

/-- Embedding of `toGoogleProduct` (google-feed.ts, lines 218-239). -/
def toGoogleProduct (item : AggregatedItem) (config : FeedConfig) :
    GoogleProduct :=
  { id := item.itemId
    title := item.name
    description := if ¬item.description.isEmpty then item.description else item.name
    link := item.productUrl.getD []
    image_link := item.imageUrl.getD []
    availability := if item.totalQuantity.isPos then str "in_stock"
      else str "out_of_stock"
    price := priceValueStr item.minPrice ++ str " " ++ item.currency
    condition := str "new"
    brand := match item.brand with
      | some b => some b
      | none => config.defaultBrand
    mpn := none
    product_type := item.category }

/-- The fixed column order (google-feed.ts, lines 244-256). -/
def FEED_COLUMNS : List Str :=
  [str "id", str "title", str "description", str "link", str "image_link",
   str "availability", str "price", str "condition", str "brand", str "mpn",
   str "product_type"]

/-- The key-indexed access `googleProduct[col]` (every column holds a
`string | undefined` value). -/
def getField (p : GoogleProduct) (col : Str) : Option Str :=
  if col = str "id" then some p.id
  else if col = str "title" then some p.title
  else if col = str "description" then some p.description
  else if col = str "link" then some p.link
  else if col = str "image_link" then some p.image_link
  else if col = str "availability" then some p.availability
  else if col = str "price" then some p.price
  else if col = str "condition" then some p.condition
  else if col = str "brand" then p.brand
  else if col = str "mpn" then p.mpn
  else if col = str "product_type" then p.product_type
  else none

/-- Embedding of `escapeTsvValue` (google-feed.ts, lines 261-264): falsy
values become the empty string; every tab, newline or carriage-return
character is replaced by a single space. -/
def escapeTsvValue (value : Option Str) : Str :=
  match value with
  | none => []
  | some s =>
    if s.isEmpty then []
    else s.map (fun c => if c = '\t' ∨ c = '\n' ∨ c = '\r' then ' ' else c)

/-- Model of `Array.prototype.join` with a string separator. -/
def joinSep (sep : Str) : List Str → Str
  | [] => []
  | [x] => x
  | x :: xs => x ++ sep ++ joinSep sep xs

/-- One data row: the column values in `FEED_COLUMNS` order, escaped and
joined with tabs (google-feed.ts, lines 296-299). -/
def tsvRowOf (p : GoogleProduct) : Str :=
  joinSep (str "\t") (FEED_COLUMNS.map (fun col => escapeTsvValue (getField p col)))

/-- Model of `!item.minPrice || item.minPrice === Infinity` (line 290):
`0` is falsy and the sentinel is `Infinity`. -/
def skipPrice (m : Option Int) : Bool :=
  match m with
  | none => true
  | some v => v = 0

/-- The encode-time row filter and row construction
(google-feed.ts, lines 282-300). -/
def tsvRows (data : SquareInventoryData) (config : FeedConfig) : List Str :=
  (aggregateItems data).filterMap (fun item =>
    if ¬jsTruthy item.productUrl then none
    else if ¬jsTruthy item.imageUrl then none
    else if skipPrice item.minPrice then none
    else if ¬item.totalQuantity.isPos then none
    else some (tsvRowOf (toGoogleProduct item config)))

/-- Embedding of `generateTsvFeed` (google-feed.ts, lines 269-303): the
header row followed by the data rows, joined with newlines. -/
def generateTsvFeed (data : SquareInventoryData) (config : FeedConfig) : Str :=
  joinSep (str "\n") (joinSep (str "\t") FEED_COLUMNS :: tsvRows data config)

/-! ## Association-map lemmas -/

theorem mapGet_nil {α : Type} (k : Str) : mapGet ([] : JMap α) k = none := rfl

theorem mapGet_cons {α : Type} (e : Str × α) (m : JMap α) (k : Str) :
    mapGet (e :: m) k = if e.1 = k then some e.2 else mapGet m k := by
  by_cases h : e.1 = k <;> simp [mapGet, List.find?, h]

theorem mapGet_mapSet {α : Type} (m : JMap α) (k j : Str) (v : α) :
    mapGet (mapSet m k v) j = if k = j then some v else mapGet m j := by
  induction m with
  | nil => by_cases h : k = j <;> simp [mapSet, mapGet_cons, h]
  | cons e m ih =>
    by_cases he : e.1 = k
    · simp only [mapSet, if_pos he, mapGet_cons]
      by_cases hj : k = j
      · simp [hj]
      · have hej : e.1 ≠ j := by rw [he]; exact hj
        simp [hj, hej]
    · simp only [mapSet, if_neg he]
      by_cases hj : k = j
      · rw [mapGet_cons, if_neg (by rw [hj] at he; exact he), ih, if_pos hj,
          if_pos hj]
      · rw [mapGet_cons, ih, if_neg hj, if_neg hj, mapGet_cons]

theorem mapGet_mem {α : Type} {m : JMap α} {k : Str} {v : α}
    (h : mapGet m k = some v) : (k, v) ∈ m := by
  induction m with
  | nil => simp [mapGet] at h
  | cons e m ih =>
    rw [mapGet_cons] at h
    by_cases he : e.1 = k
    · rw [if_pos he] at h
      have he2 : e = (k, v) := by
        obtain ⟨e1, e2⟩ := e
        simp only [Option.some.injEq] at h
        simp only at he
        simp [he, h]
      rw [List.mem_cons]
      exact Or.inl he2.symm
    · rw [if_neg he] at h
      exact List.mem_cons_of_mem _ (ih h)

theorem mapGet_of_mem_nodup {α : Type} {m : JMap α} {k : Str} {v : α}
    (hd : (m.map (·.1)).Nodup) (h : (k, v) ∈ m) : mapGet m k = some v := by
  induction m with
  | nil => simp at h
  | cons e m ih =>
    rw [List.map_cons, List.nodup_cons] at hd
    rw [mapGet_cons]
    rcases List.mem_cons.1 h with h | h
    · simp [← h]
    · have hk : e.1 ≠ k := by
        intro hek
        exact hd.1 (hek ▸ (List.mem_map.2 ⟨(k, v), h, rfl⟩))
      rw [if_neg hk]
      exact ih hd.2 h

theorem mem_mapSet {α : Type} {m : JMap α} {k : Str} {v : α} {e : Str × α}
    (h : e ∈ mapSet m k v) : e = (k, v) ∨ e ∈ m := by
  induction m with
  | nil => simp [mapSet] at h; simp [h]
  | cons f m ih =>
    by_cases hf : f.1 = k
    · simp only [mapSet, if_pos hf] at h
      rcases List.mem_cons.1 h with h | h
      · exact Or.inl h
      · exact Or.inr (List.mem_cons_of_mem _ h)
    · simp only [mapSet, if_neg hf] at h
      rcases List.mem_cons.1 h with h | h
      · exact Or.inr (h ▸ List.mem_cons_self _ _)
      · rcases ih h with h | h
        · exact Or.inl h
        · exact Or.inr (List.mem_cons_of_mem _ h)

theorem keys_mapSet_nodup {α : Type} {m : JMap α} (k : Str) (v : α)
    (hd : (m.map (·.1)).Nodup) : ((mapSet m k v).map (·.1)).Nodup := by
  induction m with
  | nil => simp [mapSet]
  | cons e m ih =>
    rw [List.map_cons, List.nodup_cons] at hd
    by_cases he : e.1 = k
    · simp only [mapSet, if_pos he, List.map_cons, List.nodup_cons]
      exact ⟨he ▸ hd.1, hd.2⟩
    · simp only [mapSet, if_neg he, List.map_cons, List.nodup_cons]
      refine ⟨fun hmem => ?_, ih hd.2⟩
      rcases List.mem_map.1 hmem with ⟨f, hf, hfe⟩
      rcases mem_mapSet hf with h | h
      · exact he (by rw [h] at hfe; exact hfe.symm ▸ rfl)
      · exact hd.1 (hfe ▸ List.mem_map.2 ⟨f, h, rfl⟩)

theorem mem_setAdd {s : List Str} {k i : Str} :
    i ∈ setAdd s k ↔ i ∈ s ∨ i = k := by
  by_cases h : k ∈ s
  · simp only [setAdd, if_pos h]
    constructor
    · exact Or.inl
    · rintro (hi | rfl)
      · exact hi
      · exact h
  · simp [setAdd, if_neg h]

/-! ## Characterising the aggregation fold

`mapGet_itemfold` below projects the nested object/variation loop onto a
single item id: the entry for id `i` is the fold of a simple step function
over the list of `(context, variation id, variation data)` triples that the
loop processes for `i`, in processing order. -/

/-- The kept payload of a variation: its id and data, when the loop does not
skip it (`!variation.id || !variation.itemVariationData`). -/
def keptOf (v : CatalogVariation) : Option (Str × ItemVariationData) :=
  match v.id, v.itemVariationData with
  | some vid, some vd => if vid.isEmpty then none else some (vid, vd)
  | _, _ => none

/-- One aggregation step for a kept variation: update the existing entry or
create the initial one. -/
def stepE (lk : Lookups) (ctx : ItemCtx) (e : Option AggregatedItem)
    (vid : Str) (vd : ItemVariationData) : AggregatedItem :=
  let c := varCalc lk vid vd
  match e with
  | some ex => updateEntry ex c.1 c.2.1 c.2.2 ctx.productUrl ctx.imageUrl
  | none => initEntry ctx vd c.1 c.2.1 c.2.2

theorem processVariation_eq (lk : Lookups) (ctx : ItemCtx) (m : ItemMap)
    (v : CatalogVariation) :
    processVariation lk ctx m v =
      match keptOf v with
      | none => m
      | some (vid, vd) =>
        mapSet m ctx.objId (stepE lk ctx (mapGet m ctx.objId) vid vd) := by
  rcases v with ⟨vid?, vd?⟩
  cases vid? with
  | none => cases vd? <;> rfl
  | some vid =>
    cases vd? with
    | none => rfl
    | some vd =>
      simp only [processVariation, keptOf]
      by_cases h : vid.isEmpty = true
      · simp [h]
      · simp only [h, if_neg, Bool.false_eq_true, if_false]
        cases hm : mapGet m ctx.objId <;> simp [stepE, hm]

/-- The eligibility check and per-object context of the object loop, as a
partial projection: `none` exactly when the object is skipped. -/
def objEntry (lk : Lookups) (obj : CatalogObject) :
    Option (ItemCtx × List CatalogVariation) :=
  match obj.id, obj.itemData with
  | some objId, some itemData =>
    if obj.type = str "ITEM" ∧ ¬objId.isEmpty then
      if obj.isDeleted ∨ itemData.isArchived then none
      else if itemData.productType ≠ some (str "REGULAR") then none
      else some (itemCtx lk objId itemData, itemData.variations.getD [])
    else none
  | _, _ => none

theorem processObject_eq (lk : Lookups) (m : ItemMap) (obj : CatalogObject) :
    processObject lk m obj =
      match objEntry lk obj with
      | none => m
      | some (ctx, vars) => vars.foldl (processVariation lk ctx) m := by
  rcases obj with ⟨ty, id?, del, imgD, catD, itemD?⟩
  cases id? with
  | none => cases itemD? <;> rfl
  | some objId =>
    cases itemD? with
    | none => rfl
    | some itemData =>
      simp only [processObject, objEntry]
      split
      · split
        · rfl
        · split
          · rfl
          · cases hv : itemData.variations.getD [] <;> simp [hv]
      · rfl

/-- All `(context, variation id, variation data)` triples the loop processes
for item id `i`, in processing order. -/
def keptPairs (lk : Lookups) : List CatalogObject → Str →
    List (ItemCtx × Str × ItemVariationData)
  | [], _ => []
  | obj :: objs, i =>
    (match objEntry lk obj with
     | some (ctx, vars) =>
       if ctx.objId = i then (vars.filterMap keptOf).map (fun kv => (ctx, kv))
       else []
     | none => []) ++ keptPairs lk objs i

/-- The accumulator step over kept triples. -/
def stepFold (lk : Lookups) (e : Option AggregatedItem)
    (p : ItemCtx × Str × ItemVariationData) : Option AggregatedItem :=
  some (stepE lk p.1 e p.2.1 p.2.2)

theorem mapGet_varfold (lk : Lookups) (ctx : ItemCtx)
    (vars : List CatalogVariation) (m : ItemMap) (i : Str) :
    mapGet (vars.foldl (processVariation lk ctx) m) i =
      if ctx.objId = i then
        ((vars.filterMap keptOf).map (fun kv => (ctx, kv))).foldl
          (stepFold lk) (mapGet m i)
      else mapGet m i := by
  induction vars generalizing m with
  | nil => split <;> rfl
  | cons v vars ih =>
    rw [List.foldl_cons, ih, processVariation_eq]
    cases hk : keptOf v with
    | none => simp [List.filterMap_cons, hk]
    | some kv =>
      rcases kv with ⟨vid, vd⟩
      by_cases hc : ctx.objId = i
      · subst hc
        simp [List.filterMap_cons, hk, mapGet_mapSet, stepFold]
      · simp only [List.filterMap_cons, hk, if_neg hc, mapGet_mapSet,
          hc, if_false]

theorem mapGet_itemfold (lk : Lookups) (objs : List CatalogObject)
    (m : ItemMap) (i : Str) :
    mapGet (objs.foldl (processObject lk) m) i =
      (keptPairs lk objs i).foldl (stepFold lk) (mapGet m i) := by
  induction objs generalizing m with
  | nil => rfl
  | cons obj objs ih =>
    rw [List.foldl_cons, ih, processObject_eq, keptPairs, List.foldl_append]
    cases ho : objEntry lk obj with
    | none => rfl
    | some cv =>
      rcases cv with ⟨ctx, vars⟩
      rw [mapGet_varfold]
      by_cases hc : ctx.objId = i <;> simp [hc]

/-! ## Invariants of the aggregation map -/

/-- Every entry is keyed by its own `itemId`, and keys are distinct. -/
def mapInv (m : ItemMap) : Prop :=
  (∀ e ∈ m, e.2.itemId = e.1) ∧ (m.map (·.1)).Nodup

theorem updateEntry_fixed (ex : AggregatedItem) (q : JNum) (p : Int)
    (cur : Str) (pu iu : Option Str) :
    (updateEntry ex q p cur pu iu).itemId = ex.itemId ∧
    (updateEntry ex q p cur pu iu).name = ex.name ∧
    (updateEntry ex q p cur pu iu).description = ex.description ∧
    (updateEntry ex q p cur pu iu).category = ex.category ∧
    (updateEntry ex q p cur pu iu).brand = ex.brand := by
  simp only [updateEntry]
  split_ifs <;> simp

theorem stepE_some_eq (lk : Lookups) (ctx : ItemCtx) (ex : AggregatedItem)
    (vid : Str) (vd : ItemVariationData) :
    stepE lk ctx (some ex) vid vd =
      updateEntry ex (varCalc lk vid vd).1 (varCalc lk vid vd).2.1
        (varCalc lk vid vd).2.2 ctx.productUrl ctx.imageUrl := rfl

theorem stepE_none_eq (lk : Lookups) (ctx : ItemCtx) (vid : Str)
    (vd : ItemVariationData) :
    stepE lk ctx none vid vd =
      initEntry ctx vd (varCalc lk vid vd).1 (varCalc lk vid vd).2.1
        (varCalc lk vid vd).2.2 := rfl

theorem mapInv_processVariation (lk : Lookups) (ctx : ItemCtx) (m : ItemMap)
    (v : CatalogVariation) (h : mapInv m) :
    mapInv (processVariation lk ctx m v) := by
  rw [processVariation_eq]
  cases hk : keptOf v with
  | none => exact h
  | some kv =>
    rcases kv with ⟨vid, vd⟩
    refine ⟨fun e he => ?_, keys_mapSet_nodup _ _ h.2⟩
    rcases mem_mapSet he with rfl | he2
    · cases hm : mapGet m ctx.objId with
      | none => simp [hm, stepE_none_eq, initEntry]
      | some ex =>
        have hex : ex.itemId = ctx.objId := h.1 _ (mapGet_mem hm)
        simp [hm, stepE_some_eq, (updateEntry_fixed ex _ _ _ _ _).1, hex]
    · exact h.1 e he2

theorem mapInv_processObject (lk : Lookups) (m : ItemMap)
    (obj : CatalogObject) (h : mapInv m) : mapInv (processObject lk m obj) := by
  rw [processObject_eq]
  cases ho : objEntry lk obj with
  | none => exact h
  | some cv =>
    rcases cv with ⟨ctx, vars⟩
    clear ho
    induction vars generalizing m with
    | nil => exact h
    | cons v vars ih =>
      exact ih _ (mapInv_processVariation lk ctx m v h)

theorem mapInv_itemMapOf (data : SquareInventoryData) :
    mapInv (itemMapOf data) := by
  unfold itemMapOf
  generalize buildLookups data = lk
  have h0 : mapInv ([] : ItemMap) := ⟨by simp, by simp⟩
  generalize hm : ([] : ItemMap) = m at h0
  clear hm
  induction data.catalogObjects generalizing m with
  | nil => exact h0
  | cons obj objs ih => exact ih _ (mapInv_processObject lk m obj h0)

/-- Every member of the aggregation output is the fold of the step function
over the kept triples of its own item id, and has a finite minimum price. -/
theorem mem_aggregate {data : SquareInventoryData} {it : AggregatedItem}
    (h : it ∈ aggregateItems data) :
    (keptPairs (buildLookups data) data.catalogObjects it.itemId).foldl
        (stepFold (buildLookups data)) none = some it ∧
      it.minPrice.isSome := by
  rcases List.mem_filter.1 h with ⟨hmem, hfin⟩
  rcases List.mem_map.1 hmem with ⟨e, heM, he2⟩
  have hinv := mapInv_itemMapOf data
  have hkey : e.1 = it.itemId := by rw [← he2, hinv.1 e heM]
  have hget : mapGet (itemMapOf data) it.itemId = some it := by
    apply mapGet_of_mem_nodup hinv.2
    rcases e with ⟨k, v⟩
    simp only at hkey he2
    rw [← hkey, ← he2]
    exact heM
  rw [itemMapOf, mapGet_itemfold] at hget
  exact ⟨hget, by simpa [finitePrice] using hfin⟩

/-! ## The entry evolution after creation -/

/-- The aggregation of a list of kept triples into an existing entry. -/
def updFold (lk : Lookups) (ex : AggregatedItem)
    (ps : List (ItemCtx × Str × ItemVariationData)) : AggregatedItem :=
  ps.foldl (fun ex p => stepE lk p.1 (some ex) p.2.1 p.2.2) ex

theorem updFold_nil (lk : Lookups) (ex : AggregatedItem) :
    updFold lk ex [] = ex := rfl

theorem updFold_cons (lk : Lookups) (ex : AggregatedItem)
    (p : ItemCtx × Str × ItemVariationData) (ps : List (ItemCtx × Str × ItemVariationData)) :
    updFold lk ex (p :: ps) =
      updFold lk (stepE lk p.1 (some ex) p.2.1 p.2.2) ps := rfl

theorem foldl_stepFold_some (lk : Lookups)
    (ps : List (ItemCtx × Str × ItemVariationData)) (ex : AggregatedItem) :
    ps.foldl (stepFold lk) (some ex) = some (updFold lk ex ps) := by
  induction ps generalizing ex with
  | nil => rfl
  | cons p ps ih => rw [List.foldl_cons, updFold_cons]; exact ih _

/-- The price of a kept triple, as the loop computes it. -/
def pairPrice (lk : Lookups) (p : ItemCtx × Str × ItemVariationData) : Int :=
  (varCalc lk p.2.1 p.2.2).2.1

/-- The inventory quantity of a kept triple, as the loop computes it. -/
def pairQty (lk : Lookups) (p : ItemCtx × Str × ItemVariationData) : JNum :=
  (varCalc lk p.2.1 p.2.2).1

theorem updateEntry_minPrice (ex : AggregatedItem) (q : JNum) (p : Int)
    (cur : Str) (pu iu : Option Str) :
    (updateEntry ex q p cur pu iu).minPrice =
      if 0 < p ∧ ltMinPrice p ex.minPrice then some p else ex.minPrice := by
  simp only [updateEntry]
  split_ifs <;> simp_all

theorem updateEntry_totalQuantity (ex : AggregatedItem) (q : JNum) (p : Int)
    (cur : Str) (pu iu : Option Str) :
    (updateEntry ex q p cur pu iu).totalQuantity = ex.totalQuantity.add q := by
  simp only [updateEntry]
  split_ifs <;> simp

/-- The running minimum the loop maintains over a list of prices. -/
def runPosMin (m : Option Int) (prices : List Int) : Option Int :=
  prices.foldl (fun m p => if 0 < p ∧ ltMinPrice p m then some p else m) m

theorem updFold_minPrice (lk : Lookups)
    (ps : List (ItemCtx × Str × ItemVariationData)) (ex : AggregatedItem) :
    (updFold lk ex ps).minPrice = runPosMin ex.minPrice (ps.map (pairPrice lk)) := by
  induction ps generalizing ex with
  | nil => rfl
  | cons p ps ih =>
    rw [updFold_cons, ih, stepE_some_eq, updateEntry_minPrice]
    simp only [runPosMin, List.map_cons, List.foldl_cons]
    rfl

theorem updFold_totalQuantity (lk : Lookups)
    (ps : List (ItemCtx × Str × ItemVariationData)) (ex : AggregatedItem) :
    (updFold lk ex ps).totalQuantity =
      ps.foldl (fun q pr => q.add (pairQty lk pr)) ex.totalQuantity := by
  induction ps generalizing ex with
  | nil => rfl
  | cons p ps ih =>
    rw [updFold_cons, ih, List.foldl_cons, stepE_some_eq,
      updateEntry_totalQuantity]
    rfl

theorem updFold_fixed (lk : Lookups)
    (ps : List (ItemCtx × Str × ItemVariationData)) (ex : AggregatedItem) :
    (updFold lk ex ps).itemId = ex.itemId ∧
    (updFold lk ex ps).name = ex.name ∧
    (updFold lk ex ps).description = ex.description ∧
    (updFold lk ex ps).category = ex.category ∧
    (updFold lk ex ps).brand = ex.brand := by
  induction ps generalizing ex with
  | nil => exact ⟨rfl, rfl, rfl, rfl, rfl⟩
  | cons p ps ih =>
    rw [updFold_cons]
    have hu := updateEntry_fixed ex (varCalc lk p.2.1 p.2.2).1
      (varCalc lk p.2.1 p.2.2).2.1 (varCalc lk p.2.1 p.2.2).2.2
      p.1.productUrl p.1.imageUrl
    have hi := ih (stepE lk p.1 (some ex) p.2.1 p.2.2)
    rw [stepE_some_eq] at hi
    exact ⟨hi.1.trans hu.1, hi.2.1.trans hu.2.1, hi.2.2.1.trans hu.2.2.1,
      hi.2.2.2.1.trans hu.2.2.2.1, hi.2.2.2.2.trans hu.2.2.2.2⟩

/-! ## The minimum over positive prices -/

/-- The minimum of a price list restricted to its strictly positive
elements (`none` when no price is positive): the specified value of
`minPrice`. -/
def posMin (prices : List Int) : Option Int :=
  (prices.filter (fun p => 0 < p)).min?

theorem runPosMin_step (l : List Int) (p : Int) :
    (if 0 < p ∧ ltMinPrice p (posMin l) then some p else posMin l) =
      posMin (l ++ [p]) := by
  by_cases hp : 0 < p
  · have hfil : (l ++ [p]).filter (fun q => 0 < q) =
        l.filter (fun q => 0 < q) ++ [p] := by
      rw [List.filter_append]
      simp [hp]
    cases hf : l.filter (fun q => 0 < q) with
    | nil =>
      have hm : posMin l = none := by simp [posMin, hf]
      simp [posMin, hfil, hf, hm, ltMinPrice, hp, List.min?_cons']
    | cons a t =>
      have hm : posMin l = some (t.foldl min a) := by
        rw [posMin, hf, List.min?_cons']
      have hr : posMin (l ++ [p]) = some (min (t.foldl min a) p) := by
        rw [posMin, hfil, hf, List.cons_append, List.min?_cons', List.foldl_append]
        rfl
      rw [hm, hr]
      by_cases hlt : p < t.foldl min a
      · rw [if_pos ⟨hp, by simpa [ltMinPrice, hm] using hlt⟩]
        have : min (t.foldl min a) p = p := min_eq_right hlt.le
        rw [this]
      · rw [if_neg (by simp [ltMinPrice]; intro; omega)]
        have : min (t.foldl min a) p = t.foldl min a :=
          min_eq_left (by omega)
        rw [this]
  · have hfil : (l ++ [p]).filter (fun q => 0 < q) =
        l.filter (fun q => 0 < q) := by
      rw [List.filter_append]
      simp [hp]
    simp [posMin, hfil, hp]

theorem runPosMin_append (l2 : List Int) : ∀ l1 : List Int,
    runPosMin (posMin l1) l2 = posMin (l1 ++ l2) := by
  induction l2 with
  | nil => intro l1; simp [runPosMin]
  | cons p l2 ih =>
    intro l1
    have h1 : runPosMin (posMin l1) (p :: l2) =
        runPosMin (if 0 < p ∧ ltMinPrice p (posMin l1) then some p
          else posMin l1) l2 := rfl
    rw [h1, runPosMin_step, ih (l1 ++ [p]), List.append_assoc]
    rfl

theorem initEntry_minPrice (ctx : ItemCtx) (vd : ItemVariationData)
    (q : JNum) (p : Int) (cur : Str) :
    (initEntry ctx vd q p cur).minPrice =
      if p ≠ 0 then some p else none := rfl

theorem initEntry_minPrice_posMin (ctx : ItemCtx) (vd : ItemVariationData)
    (q : JNum) (p : Int) (cur : Str) (hp : 0 ≤ p) :
    (initEntry ctx vd q p cur).minPrice = posMin [p] := by
  rw [initEntry_minPrice]
  rcases lt_or_eq_of_le hp with hp | hp
  · simp [posMin, hp, hp.ne.symm, List.min?_cons']
  · simp [posMin, ← hp]

/-! ## Concrete fixtures -/

def fxVariation (id nm : Option String) (amt : Option Int) : CatalogVariation :=
  { id := id.map str
    itemVariationData := some
      { name := nm.map str
        priceMoney := amt.map
          (fun a => { amount := some a, currency := some (str "AUD") }) } }

def fxItem (id nm : String) (descr : Option String) (ptype : String)
    (imgIds : List String) (repCat : Option String) (cats : List String)
    (ecom : Option String) (vars : List CatalogVariation) : CatalogObject :=
  { type := str "ITEM", id := some (str id), isDeleted := false
    imageData := none, categoryData := none
    itemData := some
      { name := some (str nm), description := descr.map str
        isArchived := false, productType := some (str ptype)
        variations := some vars, imageIds := some (imgIds.map str)
        reportingCategory := repCat.map (fun c => ⟨some (str c)⟩)
        categories := some (cats.map (fun c => ⟨some (str c)⟩))
        ecomUri := ecom.map str } }

def fxImage (id url : String) : CatalogObject :=
  { type := str "IMAGE", id := some (str id), isDeleted := false
    imageData := some { url := some (str url) }
    categoryData := none, itemData := none }

def fxCategory (id nm : String) (parent : Option String) : CatalogObject :=
  { type := str "CATEGORY", id := some (str id), isDeleted := false
    imageData := none
    categoryData := some
      { name := some (str nm)
        parentCategory := parent.map (fun c => ⟨some (str c)⟩) }
    itemData := none }

def fxCount (id q : String) : InventoryCount :=
  { catalogObjectId := some (str id), quantity := some (str q) }

/-- A small but representative catalog: a brand category tree, one REGULAR
item with three variations (two stock locations for the first, a zero
quantity, a malformed quantity, a missing price), an EVENT item and a
LEGACY_SQUARE_ONLINE_SERVICE item. -/
def sampleData : SquareInventoryData :=
  { fetchedAt := str "2024-01-01T00:00:00Z"
    catalogObjects :=
      [ fxImage "img-1" "https://example.com/ruru.jpg"
      , fxCategory "cat-brands" "BRANDS" none
      , fxCategory "cat-rpm" "RPM" (some "cat-brands")
      , fxCategory "cat-putters" "Putters" none
      , fxItem "item-1" "RURU" (some "A putter") "REGULAR" ["img-1"]
          (some "cat-putters") ["cat-putters", "cat-rpm"]
          (some "https://shop.example/ruru")
          [ fxVariation (some "var-1") (some "ATOMIC/PINK/171") (some 2200)
          , fxVariation (some "var-2") (some "COSMIC/BLUE/170") (some 1800)
          , fxVariation (some "var-3") (some "STELLAR/GREEN/175") none ]
      , fxItem "item-2" "Event Registration" none "EVENT" []
          none [] (some "https://shop.example/event")
          [fxVariation (some "var-e") none (some 1500)]
      , fxItem "item-3" "Membership" none "LEGACY_SQUARE_ONLINE_SERVICE" []
          none [] (some "https://shop.example/membership")
          [fxVariation (some "var-l") none (some 5000)] ]
    inventoryCounts :=
      [ fxCount "var-1" "2"
      , fxCount "var-1" "3"
      , fxCount "var-2" "0"
      , fxCount "var-3" "abc"
      , fxCount "var-e" "10" ] }

/-- The single aggregated item `sampleData` produces. -/
def sampleItem : AggregatedItem :=
  { itemId := str "item-1"
    name := str "Ruru"
    description := str "A putter"
    productUrl := some (str "https://shop.example/ruru")
    imageUrl := some (str "https://example.com/ruru.jpg")
    category := some (str "Putters")
    brand := some (str "RPM")
    minPrice := some 1800
    currency := str "AUD"
    totalQuantity := ⟨5, 1⟩ }


theorem aggregate_sampleData : aggregateItems sampleData = [sampleItem] := by
  decide

/-- A catalog whose only item has a single variation with a negative price
amount. -/
def negPriceData : SquareInventoryData :=
  { fetchedAt := str "2024-01-01T00:00:00Z"
    catalogObjects :=
      [ fxItem "item-neg" "Refund Disc" none "REGULAR" [] none []
          (some "https://shop.example/refund")
          [fxVariation (some "var-n") none (some (-100))] ]
    inventoryCounts := [fxCount "var-n" "1"] }

/-- The prices of all item variations the aggregation loop processes for a
given item id, in processing order. -/
def itemPrices (data : SquareInventoryData) (i : Str) : List Int :=
  (keptPairs (buildLookups data) data.catalogObjects i).map
    (pairPrice (buildLookups data))

/-! ## Claim C1 -/

/-- C1 counterexample: with a single variation whose price amount is
negative (-100), the item survives aggregation with `minPrice = -100`,
although the minimum over prices restricted to positive values is the
sentinel — the claim would require `minPrice` to be the sentinel and the
item to be dropped. -/
theorem claim_C1_counterexample :
    (aggregateItems negPriceData).map (fun it => (it.itemId, it.minPrice)) =
      [(str "item-neg", some (-100))] ∧
    posMin (itemPrices negPriceData (str "item-neg")) = none := by
  decide

/-- C1 (amended: the characterisation of `minPrice` as the minimum over
strictly positive variation prices holds provided the first processed
variation's price is nonnegative — a negative first price is itself kept as
`minPrice`; and the first variation sets `minPrice` to its price when the
price is nonzero, not only when it is positive): for every surviving item,
`minPrice` is the minimum of its processed variations' prices restricted to
prices strictly greater than zero, every surviving item has a non-sentinel
`minPrice`, and entry creation turns exactly the zero price into the
sentinel. -/
theorem claim_C1 (data : SquareInventoryData) (it : AggregatedItem)
    (hmem : it ∈ aggregateItems data)
    (hfirst : 0 ≤ (itemPrices data it.itemId).headD 0) :
    it.minPrice = posMin (itemPrices data it.itemId) ∧
    it.minPrice ≠ none ∧
    (∀ (ctx : ItemCtx) (vd : ItemVariationData) (q : JNum) (p : Int)
      (cur : Str),
      (initEntry ctx vd q p cur).minPrice =
        if p ≠ 0 then some p else none) := by
  obtain ⟨hfold, hfin⟩ := mem_aggregate hmem
  refine ⟨?_, fun h => by simp [h] at hfin, fun ctx vd q p cur => rfl⟩
  cases hps : keptPairs (buildLookups data) data.catalogObjects it.itemId with
  | nil => rw [hps] at hfold; simp at hfold
  | cons p ps =>
    rw [hps, List.foldl_cons,
      show stepFold (buildLookups data) none p =
        some (stepE (buildLookups data) p.1 none p.2.1 p.2.2) from rfl,
      foldl_stepFold_some] at hfold
    have hit : it = updFold (buildLookups data)
        (stepE (buildLookups data) p.1 none p.2.1 p.2.2) ps :=
      (Option.some_inj.1 hfold).symm
    have hpp : itemPrices data it.itemId =
        pairPrice (buildLookups data) p ::
          ps.map (pairPrice (buildLookups data)) := by
      rw [itemPrices, hps, List.map_cons]
    have h0 : (0 : Int) ≤ pairPrice (buildLookups data) p := by
      rw [hpp] at hfirst
      simpa using hfirst
    have h0v : (0 : Int) ≤ (varCalc (buildLookups data) p.2.1 p.2.2).2.1 := h0
    have hmp : it.minPrice =
        runPosMin (posMin [pairPrice (buildLookups data) p])
          (ps.map (pairPrice (buildLookups data))) := by
      rw [hit, updFold_minPrice, stepE_none_eq,
        initEntry_minPrice_posMin _ _ _ _ _ h0v]
      rfl
    rw [hmp, runPosMin_append, hpp, List.singleton_append]

/-- C1 witness: the amended theorem applied to `sampleData` and its
aggregated item. -/
theorem claim_C1_witness :
    sampleItem ∈ aggregateItems sampleData ∧
    0 ≤ (itemPrices sampleData sampleItem.itemId).headD 0 ∧
    (sampleItem.minPrice = posMin (itemPrices sampleData sampleItem.itemId) ∧
      sampleItem.minPrice ≠ none ∧
      (∀ (ctx : ItemCtx) (vd : ItemVariationData) (q : JNum) (p : Int)
        (cur : Str),
        (initEntry ctx vd q p cur).minPrice =
          if p ≠ 0 then some p else none)) :=
  ⟨by decide, by decide,
    claim_C1 sampleData sampleItem (by decide) (by decide)⟩

/-! ## Claim C5 -/

/-- A minimal REGULAR item payload used to build eligibility fixtures. -/
def baseItemData : ItemData :=
  { name := some (str "X")
    description := none
    isArchived := false
    productType := some (str "REGULAR")
    variations := some [fxVariation (some "v") none (some 100)]
    imageIds := none
    reportingCategory := none
    categories := none
    ecomUri := none }

/-- A deleted item. -/
def delObj : CatalogObject :=
  ⟨str "ITEM", some (str "d1"), true, none, none, some baseItemData⟩

/-- An archived item. -/
def archObj : CatalogObject :=
  ⟨str "ITEM", some (str "d2"), false, none, none,
    some { baseItemData with isArchived := true }⟩

/-- An EVENT item. -/
def evObj : CatalogObject :=
  ⟨str "ITEM", some (str "d3"), false, none, none,
    some { baseItemData with productType := some (str "EVENT") }⟩

/-- An item with zero variations. -/
def novarObj : CatalogObject :=
  ⟨str "ITEM", some (str "d4"), false, none, none,
    some { baseItemData with variations := some [] }⟩

/-- An empty lookup structure. -/
def lk0 : Lookups := ⟨[], [], [], [], []⟩

/-- C5: an item contributes nothing to the aggregation whenever it is
deleted, archived, has a product type other than the literal `"REGULAR"`,
or has zero variations; concretely, of the three `sampleData` items with
product types REGULAR, EVENT and LEGACY_SQUARE_ONLINE_SERVICE only the
REGULAR one appears in the output. -/
theorem claim_C5 :
    (∀ (lk : Lookups) (m : ItemMap) (obj : CatalogObject),
      obj.isDeleted = true → processObject lk m obj = m) ∧
    (∀ (lk : Lookups) (m : ItemMap) (obj : CatalogObject) (d : ItemData),
      obj.itemData = some d → d.isArchived = true →
      processObject lk m obj = m) ∧
    (∀ (lk : Lookups) (m : ItemMap) (obj : CatalogObject) (d : ItemData),
      obj.itemData = some d → d.productType ≠ some (str "REGULAR") →
      processObject lk m obj = m) ∧
    (∀ (lk : Lookups) (m : ItemMap) (obj : CatalogObject) (d : ItemData),
      obj.itemData = some d → d.variations.getD [] = [] →
      processObject lk m obj = m) ∧
    (aggregateItems sampleData).map (fun it => it.itemId) = [str "item-1"] := by
  refine ⟨?_, ?_, ?_, ?_, by decide⟩
  · intro lk m obj hdel
    rcases obj with ⟨ty, id?, del, img, cat, it?⟩
    cases id? <;> cases it? <;> simp_all [processObject]
  · intro lk m obj d hsome harch
    rcases obj with ⟨ty, id?, del, img, cat, it?⟩
    cases id? <;> cases it? <;> simp_all [processObject]
  · intro lk m obj d hsome hpt
    rcases obj with ⟨ty, id?, del, img, cat, it?⟩
    cases id? <;> cases it? <;> simp_all [processObject]
  · intro lk m obj d hsome hv
    rcases obj with ⟨ty, id?, del, img, cat, it?⟩
    cases id? <;> cases it? <;> simp_all [processObject]

/-- C5 witness: the four skip rules applied to concrete deleted, archived,
EVENT and zero-variation items, plus the concrete filtering fact. -/
theorem claim_C5_witness :
    processObject lk0 [] delObj = [] ∧
    processObject lk0 [] archObj = [] ∧
    processObject lk0 [] evObj = [] ∧
    processObject lk0 [] novarObj = [] :=
  ⟨claim_C5.1 lk0 [] delObj (by decide),
   claim_C5.2.1 lk0 [] archObj _ rfl (by decide),
   claim_C5.2.2.1 lk0 [] evObj _ rfl (by decide),
   claim_C5.2.2.2.1 lk0 [] novarObj _ rfl (by decide)⟩

/-! ## Claim C10 -/

/-- A variation payload for an id-less variation. -/
def badVD : ItemVariationData :=
  { name := some (str "No Id")
    priceMoney := some { amount := some 2000, currency := some (str "AUD") } }

/-- Two variations that the loop must skip: one without an id, one without
variation data. -/
def badVars : List CatalogVariation :=
  [⟨none, some badVD⟩, ⟨some (str "var-x"), none⟩]

/-- An item payload carrying the two skipped variations. -/
def badItemData : ItemData :=
  { baseItemData with
    variations := some badVars
    ecomUri := some (str "https://shop.example/bad") }

/-- A catalog whose only item has two variations, all of which lack an id
or the variation payload. -/
def badVarData : SquareInventoryData :=
  { fetchedAt := str "2024-01-01T00:00:00Z"
    catalogObjects :=
      [⟨str "ITEM", some (str "item-bad"), false, none, none,
        some badItemData⟩]
    inventoryCounts := [fxCount "var-x" "4"] }

/-- An arbitrary concrete item context. -/
def ctx0 : ItemCtx := ⟨str "i", baseItemData, none, none, none, none⟩

/-- A feed configuration with no default brand. -/
def cfg0 : FeedConfig := ⟨none⟩

/-- C10: a variation without an id or without its variation payload is
skipped entirely (it neither creates nor modifies an entry); consequently
the `badVarData` item — which has two variations and hence passes the
zero-variations check — produces no aggregated item and no feed row beyond
the header. -/
theorem claim_C10 :
    (∀ (lk : Lookups) (ctx : ItemCtx) (m : ItemMap) (v : CatalogVariation),
      v.id = none ∨ v.itemVariationData = none →
      processVariation lk ctx m v = m) ∧
    badVars.length = 2 ∧
    aggregateItems badVarData = [] ∧
    generateTsvFeed badVarData cfg0 = joinSep (str "\t") FEED_COLUMNS := by
  refine ⟨?_, by decide, by decide, by decide⟩
  intro lk ctx m v hv
  rcases v with ⟨id?, vd?⟩
  cases id? <;> cases vd? <;> simp_all [processVariation]

/-- C10 witness: the skip rule applied to the two concrete bad variations. -/
theorem claim_C10_witness :
    processVariation lk0 ctx0 [] ⟨none, (badVars.get ⟨0, by decide⟩).2⟩ = [] ∧
    processVariation lk0 ctx0 [] ⟨some (str "var-x"), none⟩ = [] :=
  ⟨claim_C10.1 lk0 ctx0 [] _ (Or.inl rfl),
   claim_C10.1 lk0 ctx0 [] _ (Or.inr rfl)⟩


/-! ## Claim C2: quantities -/

theorem JNum.toRat_zero : JNum.zero.toRat = 0 := by
  simp [JNum.zero, JNum.toRat]

theorem JNum.add_toRat (a b : JNum) (ha : a.den ≠ 0) (hb : b.den ≠ 0) :
    (a.add b).toRat = a.toRat + b.toRat := by
  unfold JNum.add JNum.toRat
  have ha0 : ((a.den : Rat)) ≠ 0 := by exact_mod_cast ha
  have hb0 : ((b.den : Rat)) ≠ 0 := by exact_mod_cast hb
  push_cast
  field_simp

theorem JNum.add_den_pos {a b : JNum} (ha : 0 < a.den) (hb : 0 < b.den) :
    0 < (a.add b).den := Nat.mul_pos ha hb

theorem jsParseFloat_den_pos {s : Str} {v : JNum}
    (h : jsParseFloat s = some v) : 0 < v.den := by
  unfold jsParseFloat at h
  dsimp only at h
  split at h
  · exact absurd h (by simp)
  · simp only [Option.some_inj] at h
    rw [← h]
    exact Nat.pos_pow_of_pos _ (by norm_num)

theorem parsedQuantity_den_pos (q : Option Str) :
    0 < (parsedQuantity q).den := by
  unfold parsedQuantity
  cases h : jsParseFloat (q.getD (str "0")) with
  | none => exact Nat.one_pos
  | some v => exact jsParseFloat_den_pos h

theorem mapGet_getD_den_pos {m : JMap JNum}
    (hm : ∀ e ∈ m, 0 < e.2.den) (k : Str) :
    0 < ((mapGet m k).getD JNum.zero).den := by
  cases hg : mapGet m k with
  | none => exact Nat.one_pos
  | some v => exact hm _ (mapGet_mem hg)

theorem invStep_den_pos {m : JMap JNum}
    (hm : ∀ e ∈ m, 0 < e.2.den) (c : InventoryCount) :
    ∀ e ∈ invStep m c, 0 < e.2.den := by
  intro e he
  unfold invStep at he
  split at he
  · rcases mem_mapSet he with rfl | he2
    · exact JNum.add_den_pos (mapGet_getD_den_pos hm _)
        (parsedQuantity_den_pos _)
    · exact hm e he2
  · exact hm e he

theorem buildInventory_den_pos (counts : List InventoryCount) :
    ∀ e ∈ buildInventory counts, 0 < e.2.den := by
  unfold buildInventory
  have h0 : ∀ e ∈ ([] : JMap JNum), 0 < e.2.den := by simp
  generalize ([] : JMap JNum) = m at h0 ⊢
  induction counts generalizing m with
  | nil => exact h0
  | cons c counts ih => exact ih _ (invStep_den_pos h0 c)

/-- The summed parsed quantity of all inventory rows recorded for a given
catalog object id: the specified per-variation quantity. -/
def rowQtySum (counts : List InventoryCount) (vid : Str) : Rat :=
  ((counts.filter (fun c => c.catalogObjectId = some vid)).map
    (fun c => (parsedQuantity c.quantity).toRat)).sum

theorem invStep_foldl_toRat (vid : Str) (hvid : ¬vid.isEmpty = true)
    (counts : List InventoryCount) :
    ∀ m : JMap JNum, (∀ e ∈ m, 0 < e.2.den) →
    ((mapGet (counts.foldl invStep m) vid).getD JNum.zero).toRat =
      ((mapGet m vid).getD JNum.zero).toRat + rowQtySum counts vid := by
  induction counts with
  | nil => intro m hm; simp [rowQtySum]
  | cons c counts ih =>
    intro m hm
    rw [List.foldl_cons, ih _ (invStep_den_pos hm c)]
    rcases hid : c.catalogObjectId with _ | cid
    · have hstep : invStep m c = m := by simp [invStep, hid, jsTruthy]
      have hfil : rowQtySum (c :: counts) vid = rowQtySum counts vid := by
        simp [rowQtySum, List.filter_cons, hid]
      rw [hstep, hfil]
    · by_cases hcemp : cid.isEmpty
      · have hstep : invStep m c = m := by
          simp [invStep, hid, jsTruthy, hcemp]
        have hcv : cid ≠ vid := fun h => hvid (h ▸ hcemp)
        have hfil : rowQtySum (c :: counts) vid = rowQtySum counts vid := by
          simp [rowQtySum, List.filter_cons, hid, hcv]
        rw [hstep, hfil]
      · have hstep : invStep m c = mapSet m cid
            (((mapGet m cid).getD JNum.zero).add (parsedQuantity c.quantity)) := by
          simp [invStep, hid, jsTruthy, hcemp]
        by_cases hcv : cid = vid
        · subst hcv
          have hget : mapGet (invStep m c) cid =
              some (((mapGet m cid).getD JNum.zero).add
                (parsedQuantity c.quantity)) := by
            rw [hstep, mapGet_mapSet, if_pos rfl]
          have hfil : rowQtySum (c :: counts) cid =
              (parsedQuantity c.quantity).toRat + rowQtySum counts cid := by
            simp [rowQtySum, List.filter_cons, hid]
          rw [hget, hfil]
          simp only [Option.getD_some]
          rw [JNum.add_toRat _ _ (Nat.pos_iff_ne_zero.1 (mapGet_getD_den_pos hm _))
            (Nat.pos_iff_ne_zero.1 (parsedQuantity_den_pos _))]
          ring
        · have hget : mapGet (invStep m c) vid = mapGet m vid := by
            rw [hstep, mapGet_mapSet, if_neg hcv]
          have hfil : rowQtySum (c :: counts) vid = rowQtySum counts vid := by
            simp [rowQtySum, List.filter_cons, hid, hcv]
          rw [hget, hfil]

theorem buildInventory_toRat (counts : List InventoryCount) (vid : Str)
    (hvid : ¬vid.isEmpty = true) :
    ((mapGet (buildInventory counts) vid).getD JNum.zero).toRat =
      rowQtySum counts vid := by
  rw [buildInventory, invStep_foldl_toRat vid hvid counts [] (by simp)]
  simp [mapGet, JNum.toRat_zero]

theorem keptOf_vid_nonempty {v : CatalogVariation} {kv : Str × ItemVariationData}
    (h : keptOf v = some kv) : ¬kv.1.isEmpty = true := by
  rcases v with ⟨id?, vd?⟩
  cases id? <;> cases vd? <;> simp_all [keptOf]
  rcases h with ⟨hne, rfl⟩
  simpa using hne

theorem mem_keptPairs_vid {lk : Lookups} {objs : List CatalogObject} {i : Str}
    {p : ItemCtx × Str × ItemVariationData} (h : p ∈ keptPairs lk objs i) :
    ¬p.2.1.isEmpty = true := by
  induction objs with
  | nil => simp [keptPairs] at h
  | cons obj objs ih =>
    rw [keptPairs] at h
    rcases List.mem_append.1 h with h | h
    · rcases ho : objEntry lk obj with _ | ⟨ctx, vars⟩
      · rw [ho] at h
        simp at h
      · rw [ho] at h
        dsimp only at h
        by_cases hc : ctx.objId = i
        · rw [if_pos hc] at h
          rcases List.mem_map.1 h with ⟨kv, hkv, rfl⟩
          rcases List.mem_filterMap.1 hkv with ⟨v, _, hv⟩
          exact keptOf_vid_nonempty hv
        · rw [if_neg hc] at h
          simp at h
    · exact ih h

theorem pairQty_den_pos (data : SquareInventoryData)
    (p : ItemCtx × Str × ItemVariationData) :
    0 < (pairQty (buildLookups data) p).den :=
  mapGet_getD_den_pos (buildInventory_den_pos data.inventoryCounts) _

theorem pairQty_toRat (data : SquareInventoryData)
    (p : ItemCtx × Str × ItemVariationData) (hvid : ¬p.2.1.isEmpty = true) :
    (pairQty (buildLookups data) p).toRat =
      rowQtySum data.inventoryCounts p.2.1 :=
  buildInventory_toRat data.inventoryCounts p.2.1 hvid

theorem foldl_add_qty_toRat (lk : Lookups)
    (ps : List (ItemCtx × Str × ItemVariationData))
    (hden : ∀ p : ItemCtx × Str × ItemVariationData, 0 < (pairQty lk p).den) :
    ∀ init : JNum, 0 < init.den →
    (ps.foldl (fun q pr => q.add (pairQty lk pr)) init).toRat =
      init.toRat + (ps.map (fun p => (pairQty lk p).toRat)).sum := by
  induction ps with
  | nil => intro init _; simp
  | cons p ps ih =>
    intro init hinit
    rw [List.foldl_cons, ih _ (JNum.add_den_pos hinit (hden p)),
      JNum.add_toRat _ _ (Nat.pos_iff_ne_zero.1 hinit)
        (Nat.pos_iff_ne_zero.1 (hden p))]
    simp only [List.map_cons, List.sum_cons]
    ring

theorem stepE_none_totalQuantity (lk : Lookups) (ctx : ItemCtx) (vid : Str)
    (vd : ItemVariationData) :
    (stepE lk ctx none vid vd).totalQuantity = pairQty lk (ctx, vid, vd) := rfl

/-- C2: for every surviving item, the aggregated `totalQuantity` (read as
an exact rational) is the sum, over all processed variations of the item, of
the summed parsed quantities of all inventory rows sharing that variation's
`catalogObjectId` (multiple stock locations summed; a variation without
rows contributes 0; a quantity string that fails to parse contributes 0,
stated by the second conjunct; zero quantities are included). -/
theorem claim_C2 (data : SquareInventoryData) (it : AggregatedItem)
    (hmem : it ∈ aggregateItems data) :
    it.totalQuantity.toRat =
      ((keptPairs (buildLookups data) data.catalogObjects it.itemId).map
        (fun p => rowQtySum data.inventoryCounts p.2.1)).sum ∧
    (∀ q : Option Str, jsParseFloat (q.getD (str "0")) = none →
      parsedQuantity q = JNum.zero) := by
  refine ⟨?_, fun q hq => by simp [parsedQuantity, hq]⟩
  obtain ⟨hfold, _⟩ := mem_aggregate hmem
  cases hps : keptPairs (buildLookups data) data.catalogObjects it.itemId with
  | nil => rw [hps] at hfold; simp at hfold
  | cons p ps =>
    rw [hps, List.foldl_cons,
      show stepFold (buildLookups data) none p =
        some (stepE (buildLookups data) p.1 none p.2.1 p.2.2) from rfl,
      foldl_stepFold_some] at hfold
    have hit : it = updFold (buildLookups data)
        (stepE (buildLookups data) p.1 none p.2.1 p.2.2) ps :=
      (Option.some_inj.1 hfold).symm
    have hq : it.totalQuantity.toRat =
        (pairQty (buildLookups data) p).toRat +
          (ps.map (fun q => (pairQty (buildLookups data) q).toRat)).sum := by
      rw [hit, updFold_totalQuantity,
        show (stepE (buildLookups data) p.1 none p.2.1 p.2.2).totalQuantity =
          pairQty (buildLookups data) (p.1, p.2.1, p.2.2) from rfl]
      exact foldl_add_qty_toRat (buildLookups data) ps
        (pairQty_den_pos data) _ (pairQty_den_pos data (p.1, p.2.1, p.2.2))
    rw [hq, List.map_cons, List.sum_cons,
      pairQty_toRat data p (mem_keptPairs_vid (hps ▸ List.mem_cons_self p ps))]
    congr 1
    congr 1
    apply List.map_congr_left
    intro q hqm
    exact pairQty_toRat data q
      (mem_keptPairs_vid (hps ▸ List.mem_cons_of_mem p hqm))

/-- C2 witness: the theorem applied to `sampleData` and its aggregated item
(total quantity 5 = 2 + 3 from two stock locations of var-1, plus 0 for
var-2, plus 0 for the malformed "abc" row of var-3). -/
theorem claim_C2_witness :
    sampleItem ∈ aggregateItems sampleData ∧
    (sampleItem.totalQuantity.toRat =
      ((keptPairs (buildLookups sampleData) sampleData.catalogObjects
        sampleItem.itemId).map
          (fun p => rowQtySum sampleData.inventoryCounts p.2.1)).sum ∧
      (∀ q : Option Str, jsParseFloat (q.getD (str "0")) = none →
        parsedQuantity q = JNum.zero)) :=
  ⟨by decide, claim_C2 sampleData sampleItem (by decide)⟩

/-! ## Claim C3: brand derivation -/

theorem buildCategories_parents_nodup (objs : List CatalogObject) :
    (((buildCategories objs).2).map (·.1)).Nodup := by
  unfold buildCategories
  have h0 : ((([], []) : JMap Str × JMap (Option Str)).2.map (·.1)).Nodup := by
    simp
  generalize (([], []) : JMap Str × JMap (Option Str)) = m at h0 ⊢
  induction objs generalizing m with
  | nil => exact h0
  | cons obj objs ih =>
    rw [List.foldl_cons]
    apply ih
    rcases hcd : obj.categoryData with _ | cd
    · simpa only [hcd] using h0
    · rcases hnm : cd.name with _ | nm
      · simpa only [hcd, hnm] using h0
      · simp only [hcd, hnm]
        split
        · exact keys_mapSet_nodup _ _ h0
        · exact h0

theorem mem_brandFold (bid : Str) (parents : JMap (Option Str)) :
    ∀ (s : List Str) (i : Str),
    (i ∈ parents.foldl
      (fun s e => if e.2 = some bid then setAdd s e.1 else s) s) ↔
    (i ∈ s ∨ ∃ e ∈ parents, e.1 = i ∧ e.2 = some bid) := by
  induction parents with
  | nil => intro s i; simp
  | cons e parents ih =>
    intro s i
    rw [List.foldl_cons]
    by_cases he : e.2 = some bid
    · rw [if_pos he, ih, mem_setAdd]
      constructor
      · rintro ((h | rfl) | ⟨f, hf, h1, h2⟩)
        · exact Or.inl h
        · exact Or.inr ⟨e, List.mem_cons_self _ _, rfl, he⟩
        · exact Or.inr ⟨f, List.mem_cons_of_mem _ hf, h1, h2⟩
      · rintro (h | ⟨f, hf, h1, h2⟩)
        · exact Or.inl (Or.inl h)
        · rcases List.mem_cons.1 hf with rfl | hf2
          · exact Or.inl (Or.inr h1.symm)
          · exact Or.inr ⟨f, hf2, h1, h2⟩
    · rw [if_neg he, ih]
      constructor
      · rintro (h | ⟨f, hf, h1, h2⟩)
        · exact Or.inl h
        · exact Or.inr ⟨f, List.mem_cons_of_mem _ hf, h1, h2⟩
      · rintro (h | ⟨f, hf, h1, h2⟩)
        · exact Or.inl h
        · rcases List.mem_cons.1 hf with rfl | hf2
          · exact absurd h2 he
          · exact Or.inr ⟨f, hf2, h1, h2⟩

theorem mem_buildBrandCategoryIds (cats : JMap Str)
    (parents : JMap (Option Str)) (hd : (parents.map (·.1)).Nodup) (i : Str) :
    i ∈ buildBrandCategoryIds cats parents ↔
      ∃ b, findBrandsId cats = some b ∧ ¬b.isEmpty = true ∧
        mapGet parents i = some (some b) := by
  unfold buildBrandCategoryIds
  cases hf : findBrandsId cats with
  | none => simp
  | some bid =>
    dsimp only
    by_cases hb : ¬bid.isEmpty = true
    · rw [if_pos hb, mem_brandFold]
      simp only [List.not_mem_nil, false_or]
      constructor
      · rintro ⟨e, heM, h1, h2⟩
        refine ⟨bid, rfl, hb, ?_⟩
        apply mapGet_of_mem_nodup hd
        rcases e with ⟨k, v⟩
        simp only at h1 h2
        rw [← h1, ← h2]
        exact heM
      · rintro ⟨b, hbeq, hbne, hget⟩
        have hbb : b = bid := (Option.some_inj.1 hbeq).symm
        subst hbb
        exact ⟨(i, some b), mapGet_mem hget, rfl, rfl⟩
    · rw [if_neg hb]
      simp only [List.not_mem_nil, false_iff]
      rintro ⟨b, hbeq, hbne, hget⟩
      have hbb : b = bid := (Option.some_inj.1 hbeq).symm
      subst hbb
      exact hb hbne

/-- The specified brand resolution: the first id in the item's category
reference list (in list order) that is truthy and belongs to
`brandCategoryIds` determines the brand, via the category-name index;
items with no such id get no brand. -/
def brandSpec (categories : JMap Str) (brandIds : List Str)
    (cats : List CategoryRef) : Option Str :=
  ((cats.filterMap (·.id)).find?
    (fun cid => !cid.isEmpty && decide (cid ∈ brandIds))).bind
    (fun cid => mapGet categories cid)

theorem computeBrand_eq_brandSpec (categories : JMap Str)
    (brandIds : List Str) (cats : List CategoryRef) :
    computeBrand categories brandIds cats =
      brandSpec categories brandIds cats := by
  induction cats with
  | nil => rfl
  | cons c rest ih =>
    cases hi : c.id with
    | none =>
      have h1 : computeBrand categories brandIds (c :: rest) =
          computeBrand categories brandIds rest := by
        simp [computeBrand, hi]
      have h2 : brandSpec categories brandIds (c :: rest) =
          brandSpec categories brandIds rest := by
        simp [brandSpec, List.filterMap_cons, hi]
      rw [h1, h2, ih]
    | some cid =>
      by_cases hc : ¬cid.isEmpty = true ∧ cid ∈ brandIds
      · have hbool : (!cid.isEmpty && decide (cid ∈ brandIds)) = true := by
          simp [hc.1, hc.2]
        have h1 : computeBrand categories brandIds (c :: rest) =
            mapGet categories cid := by
          simp [computeBrand, hi, hc]
        have h2 : brandSpec categories brandIds (c :: rest) =
            mapGet categories cid := by
          simp only [brandSpec, List.filterMap_cons, hi, List.find?, hbool]
          rfl
        rw [h1, h2]
      · have hbool : (!cid.isEmpty && decide (cid ∈ brandIds)) = false := by
          rcases not_and_or.1 hc with h | h
          · have hce : cid.isEmpty = true := by simpa using h
            simp [hce]
          · simp [h]
        have h1 : computeBrand categories brandIds (c :: rest) =
            computeBrand categories brandIds rest := by
          simp only [computeBrand, hi]
          rw [if_neg hc]
        have h2 : brandSpec categories brandIds (c :: rest) =
            brandSpec categories brandIds rest := by
          simp only [brandSpec, List.filterMap_cons, hi, List.find?, hbool]
        rw [h1, h2, ih]

theorem objEntry_some_ctx {lk : Lookups} {obj : CatalogObject} {ctx : ItemCtx}
    {vars : List CatalogVariation} (h : objEntry lk obj = some (ctx, vars)) :
    ∃ objId itemData, ctx = itemCtx lk objId itemData := by
  unfold objEntry at h
  rcases hid : obj.id with _ | objId <;> rw [hid] at h
  · rcases hitd : obj.itemData with _ | itemData <;> rw [hitd] at h <;>
      exact absurd h (by simp)
  · rcases hitd : obj.itemData with _ | itemData <;> rw [hitd] at h
    · exact absurd h (by simp)
    · dsimp only at h
      split at h
      · split at h
        · exact absurd h (by simp)
        · split at h
          · exact absurd h (by simp)
          · exact ⟨objId, itemData,
              (congrArg Prod.fst (Option.some_inj.1 h)).symm⟩
      · exact absurd h (by simp)

theorem mem_keptPairs_brand {lk : Lookups} {objs : List CatalogObject}
    {i : Str} {p : ItemCtx × Str × ItemVariationData}
    (h : p ∈ keptPairs lk objs i) :
    p.1.brand = computeBrand lk.categories lk.brandCategoryIds
      (p.1.itemData.categories.getD []) := by
  induction objs with
  | nil => simp [keptPairs] at h
  | cons obj objs ih =>
    rw [keptPairs] at h
    rcases List.mem_append.1 h with h | h
    · rcases ho : objEntry lk obj with _ | ⟨ctx, vars⟩
      · rw [ho] at h
        simp at h
      · rw [ho] at h
        dsimp only at h
        by_cases hc : ctx.objId = i
        · rw [if_pos hc] at h
          rcases List.mem_map.1 h with ⟨kv, _, rfl⟩
          obtain ⟨objId, itemData, hctx⟩ := objEntry_some_ctx ho
          rw [hctx]
          rfl
        · rw [if_neg hc] at h
          simp at h
    · exact ih h

/-- C3: (a) `brandCategoryIds` consists exactly of the ids whose recorded
parent is the first category named literally `"BRANDS"` (empty when there
is no such category, in which case no membership and hence no derived brand
is possible); (b) for every surviving item, its brand is the category name
of the first truthy id in the first processed object's category-reference
list (in list order) that belongs to `brandCategoryIds`, and is absent when
no such id exists (the `brandSpec` find-based formulation). -/
theorem claim_C3 (data : SquareInventoryData) (it : AggregatedItem)
    (hmem : it ∈ aggregateItems data) :
    (∀ i : Str, i ∈ (buildLookups data).brandCategoryIds ↔
      ∃ b, findBrandsId (buildLookups data).categories = some b ∧
        ¬b.isEmpty = true ∧
        mapGet (buildLookups data).categoryParents i = some (some b)) ∧
    ∃ p ps,
      keptPairs (buildLookups data) data.catalogObjects it.itemId = p :: ps ∧
      it.brand = brandSpec (buildLookups data).categories
        (buildLookups data).brandCategoryIds
        (p.1.itemData.categories.getD []) := by
  constructor
  · intro i
    exact mem_buildBrandCategoryIds (buildLookups data).categories
      (buildLookups data).categoryParents
      (buildCategories_parents_nodup data.catalogObjects) i
  · obtain ⟨hfold, _⟩ := mem_aggregate hmem
    cases hps : keptPairs (buildLookups data) data.catalogObjects it.itemId with
    | nil => rw [hps] at hfold; simp at hfold
    | cons p ps =>
      refine ⟨p, ps, rfl, ?_⟩
      rw [hps, List.foldl_cons,
        show stepFold (buildLookups data) none p =
          some (stepE (buildLookups data) p.1 none p.2.1 p.2.2) from rfl,
        foldl_stepFold_some] at hfold
      have hit : it = updFold (buildLookups data)
          (stepE (buildLookups data) p.1 none p.2.1 p.2.2) ps :=
        (Option.some_inj.1 hfold).symm
      have hbr : it.brand = p.1.brand := by
        rw [hit]
        exact (updFold_fixed _ _ _).2.2.2.2
      rw [hbr, mem_keptPairs_brand (hps ▸ List.mem_cons_self p ps),
        computeBrand_eq_brandSpec]

/-- C3 witness: the theorem applied to `sampleData` (brand tree
`BRANDS ← RPM`, item categories `[Putters, RPM]`, derived brand `"RPM"`). -/
theorem claim_C3_witness :
    sampleItem ∈ aggregateItems sampleData ∧
    ((∀ i : Str, i ∈ (buildLookups sampleData).brandCategoryIds ↔
      ∃ b, findBrandsId (buildLookups sampleData).categories = some b ∧
        ¬b.isEmpty = true ∧
        mapGet (buildLookups sampleData).categoryParents i = some (some b)) ∧
    ∃ p ps,
      keptPairs (buildLookups sampleData) sampleData.catalogObjects
        sampleItem.itemId = p :: ps ∧
      sampleItem.brand = brandSpec (buildLookups sampleData).categories
        (buildLookups sampleData).brandCategoryIds
        (p.1.itemData.categories.getD [])) :=
  ⟨by decide, claim_C3 sampleData sampleItem (by decide)⟩

/-! ## Claim C4: name derivation -/

/-- C4: for every surviving item, the aggregated name is
`extractBaseName` of the working name built from the first processed
variation (`"<item name> - <variation display name>"` when the variation
has a truthy display name, else the item name alone — the two definitional
conjuncts), and the normalisation maps the four reference inputs as the
specification states. -/
theorem claim_C4 (data : SquareInventoryData) (it : AggregatedItem)
    (hmem : it ∈ aggregateItems data) :
    (∃ p ps,
      keptPairs (buildLookups data) data.catalogObjects it.itemId = p :: ps ∧
      it.name = extractBaseName (jsFullName p.1.itemData p.2.2)) ∧
    (∀ (d : ItemData) (vd : ItemVariationData) (n : Str),
      vd.name = some n → ¬n.isEmpty = true →
      jsFullName d vd = tmplStr d.name ++ str " - " ++ n) ∧
    (∀ (d : ItemData) (vd : ItemVariationData), vd.name = none →
      jsFullName d vd = d.name.getD []) ∧
    extractBaseName (str "MAVERICK") = str "Maverick" ∧
    extractBaseName (str "RURU - RURU - ATOMIC/PINK/171") = str "Ruru" ∧
    extractBaseName (str "Innova Destroyer") = str "Innova Destroyer" ∧
    extractBaseName (str "Envy") = str "Envy" := by
  refine ⟨?_, ?_, ?_, by decide, by decide, by decide, by decide⟩
  · obtain ⟨hfold, _⟩ := mem_aggregate hmem
    cases hps : keptPairs (buildLookups data) data.catalogObjects it.itemId with
    | nil => rw [hps] at hfold; simp at hfold
    | cons p ps =>
      refine ⟨p, ps, rfl, ?_⟩
      rw [hps, List.foldl_cons,
        show stepFold (buildLookups data) none p =
          some (stepE (buildLookups data) p.1 none p.2.1 p.2.2) from rfl,
        foldl_stepFold_some] at hfold
      have hit : it = updFold (buildLookups data)
          (stepE (buildLookups data) p.1 none p.2.1 p.2.2) ps :=
        (Option.some_inj.1 hfold).symm
      have hnm : it.name = (stepE (buildLookups data) p.1 none p.2.1 p.2.2).name := by
        rw [hit]
        exact (updFold_fixed _ _ _).2.1
      rw [hnm]
      rfl
  · intro d vd n hn hne
    simp [jsFullName, hn, hne]
  · intro d vd hn
    simp [jsFullName, hn]

/-- C4 witness: applied to `sampleData`; the first variation of item-1
yields working name `"RURU - ATOMIC/PINK/171"`, normalised to `"Ruru"`. -/
theorem claim_C4_witness :
    sampleItem ∈ aggregateItems sampleData ∧
    ((∃ p ps,
      keptPairs (buildLookups sampleData) sampleData.catalogObjects
        sampleItem.itemId = p :: ps ∧
      sampleItem.name = extractBaseName (jsFullName p.1.itemData p.2.2)) ∧
    (∀ (d : ItemData) (vd : ItemVariationData) (n : Str),
      vd.name = some n → ¬n.isEmpty = true →
      jsFullName d vd = tmplStr d.name ++ str " - " ++ n) ∧
    (∀ (d : ItemData) (vd : ItemVariationData), vd.name = none →
      jsFullName d vd = d.name.getD []) ∧
    extractBaseName (str "MAVERICK") = str "Maverick" ∧
    extractBaseName (str "RURU - RURU - ATOMIC/PINK/171") = str "Ruru" ∧
    extractBaseName (str "Innova Destroyer") = str "Innova Destroyer" ∧
    extractBaseName (str "Envy") = str "Envy") :=
  ⟨by decide, claim_C4 sampleData sampleItem (by decide)⟩

/-! ## Claim C9: price formatting -/

/-- C9: for every aggregated item with a finite minimum price `n`, the
Google product's price field is the minor-unit amount divided by 100,
rendered with two decimal places, then a space and the currency code; in
particular 2200 minor units render as `"22.00"` and with currency AUD the
field is exactly `"22.00 AUD"`. -/
theorem claim_C9 (item : AggregatedItem) (config : FeedConfig) (n : Int)
    (h : item.minPrice = some n) :
    (toGoogleProduct item config).price =
      centsToFixed2 n ++ str " " ++ item.currency ∧
    centsToFixed2 2200 = str "22.00" ∧
    centsToFixed2 2200 ++ str " " ++ str "AUD" = str "22.00 AUD" := by
  refine ⟨?_, by decide, by decide⟩
  simp [toGoogleProduct, priceValueStr, h]

/-- C9 witness: an aggregated item with minor-unit amount 2200 and currency
AUD renders exactly `"22.00 AUD"`. -/
theorem claim_C9_witness :
    ({ sampleItem with minPrice := some 2200 } : AggregatedItem).minPrice =
      some 2200 ∧
    (toGoogleProduct { sampleItem with minPrice := some 2200 } cfg0).price =
      str "22.00 AUD" := by
  refine ⟨rfl, ?_⟩
  have h := (claim_C9 { sampleItem with minPrice := some 2200 } cfg0 2200 rfl).1
  rw [h]
  decide

/-! ## Claim C6: encode-time row filter -/

theorem runPosMin_ne_zero {m : Option Int} (hm : m ≠ some 0) (l : List Int) :
    runPosMin m l ≠ some 0 := by
  induction l generalizing m with
  | nil => exact hm
  | cons p l ih =>
    have hstep : runPosMin m (p :: l) =
        runPosMin (if 0 < p ∧ ltMinPrice p m then some p else m) l := rfl
    rw [hstep]
    apply ih
    split
    · rename_i hcond
      intro h
      have h2 : p = 0 := Option.some_inj.1 h
      exact absurd (h2 ▸ hcond.1) (lt_irrefl 0)
    · exact hm

theorem aggregate_minPrice_ne_zero {data : SquareInventoryData}
    {it : AggregatedItem} (hmem : it ∈ aggregateItems data) :
    it.minPrice ≠ some 0 := by
  obtain ⟨hfold, _⟩ := mem_aggregate hmem
  cases hps : keptPairs (buildLookups data) data.catalogObjects it.itemId with
  | nil => rw [hps] at hfold; simp at hfold
  | cons p ps =>
    rw [hps, List.foldl_cons,
      show stepFold (buildLookups data) none p =
        some (stepE (buildLookups data) p.1 none p.2.1 p.2.2) from rfl,
      foldl_stepFold_some] at hfold
    have hit : it = updFold (buildLookups data)
        (stepE (buildLookups data) p.1 none p.2.1 p.2.2) ps :=
      (Option.some_inj.1 hfold).symm
    rw [hit, updFold_minPrice, stepE_none_eq, initEntry_minPrice]
    apply runPosMin_ne_zero
    split
    · rename_i hne
      intro h
      exact hne (Option.some_inj.1 h)
    · simp

theorem aggregate_totalQuantity_den_pos {data : SquareInventoryData}
    {it : AggregatedItem} (hmem : it ∈ aggregateItems data) :
    0 < it.totalQuantity.den := by
  obtain ⟨hfold, _⟩ := mem_aggregate hmem
  cases hps : keptPairs (buildLookups data) data.catalogObjects it.itemId with
  | nil => rw [hps] at hfold; simp at hfold
  | cons p ps =>
    rw [hps, List.foldl_cons,
      show stepFold (buildLookups data) none p =
        some (stepE (buildLookups data) p.1 none p.2.1 p.2.2) from rfl,
      foldl_stepFold_some] at hfold
    have hit : it = updFold (buildLookups data)
        (stepE (buildLookups data) p.1 none p.2.1 p.2.2) ps :=
      (Option.some_inj.1 hfold).symm
    rw [hit, updFold_totalQuantity]
    have key : ∀ (ps : List (ItemCtx × Str × ItemVariationData)) (init : JNum),
        0 < init.den →
        0 < (ps.foldl (fun q pr => q.add (pairQty (buildLookups data) pr))
          init).den := by
      intro ps
      induction ps with
      | nil => intro init h; exact h
      | cons q qs ih =>
        intro init h
        rw [List.foldl_cons]
        exact ih _ (JNum.add_den_pos h (pairQty_den_pos data q))
    exact key ps _ (pairQty_den_pos data (p.1, p.2.1, p.2.2))

theorem JNum.isPos_iff_toRat_pos {q : JNum} (hd : 0 < q.den) :
    q.isPos = true ↔ 0 < q.toRat := by
  unfold JNum.isPos JNum.toRat
  rw [decide_eq_true_iff]
  have hdQ : (0 : Rat) < (q.den : Rat) := by exact_mod_cast hd
  rw [div_pos_iff]
  constructor
  · intro h
    left
    refine ⟨?_, hdQ⟩
    have hn : 0 < q.num := by
      by_contra hn
      push_neg at hn
      have : q.num * q.den ≤ 0 :=
        mul_nonpos_iff.2 (Or.inr ⟨hn, Int.natCast_nonneg _⟩)
      omega
    exact_mod_cast hn
  · rintro (⟨hn, _⟩ | ⟨_, hdneg⟩)
    · have hn2 : 0 < q.num := by exact_mod_cast hn
      positivity
    · exact absurd hdneg (not_lt.2 hdQ.le)

theorem skipPrice_false {m : Option Int} (h1 : m.isSome = true)
    (h2 : m ≠ some 0) : skipPrice m = false := by
  cases m with
  | none => simp at h1
  | some v =>
    have : v ≠ 0 := fun h => h2 (h ▸ rfl)
    simp [skipPrice, this]

theorem tsvRows_eq_filter (data : SquareInventoryData) (config : FeedConfig) :
    tsvRows data config =
      ((aggregateItems data).filter
        (fun it => jsTruthy it.productUrl && jsTruthy it.imageUrl &&
          decide (0 < it.totalQuantity.toRat))).map
        (fun it => tsvRowOf (toGoogleProduct it config)) := by
  unfold tsvRows
  have key : ∀ l : List AggregatedItem,
      (∀ it ∈ l, it.minPrice.isSome = true ∧ it.minPrice ≠ some 0 ∧
        0 < it.totalQuantity.den) →
      (l.filterMap (fun item =>
        if ¬jsTruthy item.productUrl = true then none
        else if ¬jsTruthy item.imageUrl = true then none
        else if skipPrice item.minPrice = true then none
        else if ¬item.totalQuantity.isPos = true then none
        else some (tsvRowOf (toGoogleProduct item config)))) =
      (l.filter (fun it => jsTruthy it.productUrl && jsTruthy it.imageUrl &&
        decide (0 < it.totalQuantity.toRat))).map
        (fun it => tsvRowOf (toGoogleProduct it config)) := by
    intro l hl
    induction l with
    | nil => rfl
    | cons a l ih =>
      have ha := hl a (List.mem_cons_self a l)
      have hskip : skipPrice a.minPrice = false := skipPrice_false ha.1 ha.2.1
      have hpos : a.totalQuantity.isPos = decide (0 < a.totalQuantity.toRat) := by
        by_cases h : 0 < a.totalQuantity.toRat
        · simp [h, (JNum.isPos_iff_toRat_pos ha.2.2).2 h]
        · have : ¬a.totalQuantity.isPos = true :=
            fun hp => h ((JNum.isPos_iff_toRat_pos ha.2.2).1 hp)
          simp [h, Bool.eq_false_iff.2 this]
      have ih2 := ih (fun x hx => hl x (List.mem_cons_of_mem _ hx))
      rw [List.filterMap_cons, List.filter_cons]
      by_cases hp : jsTruthy a.productUrl = true <;>
        by_cases hi : jsTruthy a.imageUrl = true <;>
        by_cases hq : a.totalQuantity.isPos = true <;>
        simp_all [hskip, ← hpos]
  exact key (aggregateItems data) (fun it hmem =>
    ⟨(mem_aggregate hmem).2, aggregate_minPrice_ne_zero hmem,
      aggregate_totalQuantity_den_pos hmem⟩)

/-- C6: `generateTsvFeed` emits the header line always, and one data row
for exactly those aggregated items with a truthy (non-empty) `productUrl`,
a truthy `imageUrl`, and `totalQuantity` strictly greater than zero; all
other items are excluded. -/
theorem claim_C6 (data : SquareInventoryData) (config : FeedConfig) :
    generateTsvFeed data config =
      joinSep (str "\n") (joinSep (str "\t") FEED_COLUMNS ::
        ((aggregateItems data).filter
          (fun it => jsTruthy it.productUrl && jsTruthy it.imageUrl &&
            decide (0 < it.totalQuantity.toRat))).map
          (fun it => tsvRowOf (toGoogleProduct it config))) := by
  rw [generateTsvFeed, tsvRows_eq_filter]

/-! ## Claim C7: TSV serialisation -/

theorem mem_joinSep {sep : Str} {l : List Str} {c : Char}
    (h : c ∈ joinSep sep l) : c ∈ sep ∨ ∃ x ∈ l, c ∈ x := by
  induction l with
  | nil => simp [joinSep] at h
  | cons x xs ih =>
    cases xs with
    | nil => exact Or.inr ⟨x, by simp, by simpa [joinSep] using h⟩
    | cons y ys =>
      rw [show joinSep sep (x :: y :: ys) = x ++ sep ++ joinSep sep (y :: ys)
        from rfl] at h
      rcases List.mem_append.1 h with h | h
      · rcases List.mem_append.1 h with h | h
        · exact Or.inr ⟨x, by simp, h⟩
        · exact Or.inl h
      · rcases ih h with h | ⟨z, hz, hcz⟩
        · exact Or.inl h
        · exact Or.inr ⟨z, List.mem_cons_of_mem _ hz, hcz⟩

theorem escapeTsvValue_no_ctl (v : Option Str) (c : Char)
    (h : c ∈ escapeTsvValue v) : ¬(c = '\t' ∨ c = '\n' ∨ c = '\r') := by
  cases v with
  | none => simp [escapeTsvValue] at h
  | some s =>
    unfold escapeTsvValue at h
    dsimp only at h
    by_cases hs : s.isEmpty = true
    · rw [if_pos hs] at h
      simp at h
    · rw [if_neg hs] at h
      rcases List.mem_map.1 h with ⟨d, _, rfl⟩
      by_cases hd : d = '\t' ∨ d = '\n' ∨ d = '\r'
      · rw [if_pos hd]
        simp
      · rw [if_neg hd]
        exact hd

theorem mem_tsvRows {data : SquareInventoryData} {config : FeedConfig}
    {r : Str} (h : r ∈ tsvRows data config) :
    ∃ it, r = tsvRowOf (toGoogleProduct it config) := by
  unfold tsvRows at h
  rcases List.mem_filterMap.1 h with ⟨it, _, hit⟩
  refine ⟨it, ?_⟩
  split at hit
  · exact absurd hit (by simp)
  · split at hit
    · exact absurd hit (by simp)
    · split at hit
      · exact absurd hit (by simp)
      · split at hit
        · exact absurd hit (by simp)
        · exact (Option.some_inj.1 hit).symm

theorem newline_not_mem_tsvRowOf (p : GoogleProduct) :
    ('\n' : Char) ∉ tsvRowOf p := by
  intro h
  unfold tsvRowOf at h
  rcases mem_joinSep h with h | ⟨x, hx, hcx⟩
  · simp [str] at h
  · rcases List.mem_map.1 hx with ⟨col, _, rfl⟩
    exact escapeTsvValue_no_ctl _ _ hcx (Or.inr (Or.inl rfl))

/-- C7: the output of `generateTsvFeed` is the header line of the eleven
literal column names in fixed order, then one line per emitted item, joined
by single newlines with no trailing newline (data rows contain no newline
character, so lines are exactly header plus rows); each data row is the
eleven fields, in order, escaped and joined by tabs; escaping replaces each
tab, newline or carriage-return character by one space (length preserved,
no such character remains; the reference input renders as stated) and
serialises an absent field as the empty string; an empty catalog yields
exactly the header line. -/
theorem claim_C7 :
    (∀ config : FeedConfig,
      generateTsvFeed ⟨str "", [], []⟩ config =
        str "id\ttitle\tdescription\tlink\timage_link\tavailability\tprice\tcondition\tbrand\tmpn\tproduct_type") ∧
    (∀ (data : SquareInventoryData) (config : FeedConfig),
      generateTsvFeed data config =
        joinSep (str "\n")
          (str "id\ttitle\tdescription\tlink\timage_link\tavailability\tprice\tcondition\tbrand\tmpn\tproduct_type"
            :: tsvRows data config)) ∧
    (∀ p : GoogleProduct, tsvRowOf p = joinSep (str "\t")
      [escapeTsvValue (some p.id), escapeTsvValue (some p.title),
       escapeTsvValue (some p.description), escapeTsvValue (some p.link),
       escapeTsvValue (some p.image_link), escapeTsvValue (some p.availability),
       escapeTsvValue (some p.price), escapeTsvValue (some p.condition),
       escapeTsvValue p.brand, escapeTsvValue p.mpn,
       escapeTsvValue p.product_type]) ∧
    (∀ s : Str, (escapeTsvValue (some s)).length = s.length) ∧
    (∀ (v : Option Str) (c : Char), c ∈ escapeTsvValue v →
      ¬(c = '\t' ∨ c = '\n' ∨ c = '\r')) ∧
    escapeTsvValue none = [] ∧
    escapeTsvValue (some (str "Line 1\nLine 2\twith tab")) =
      str "Line 1 Line 2 with tab" ∧
    (∀ (data : SquareInventoryData) (config : FeedConfig) (r : Str),
      r ∈ tsvRows data config → ('\n' : Char) ∉ r) := by
  refine ⟨fun config => rfl, fun data config => ?_, fun p => rfl, ?_,
    escapeTsvValue_no_ctl, rfl, by decide, ?_⟩
  · rw [generateTsvFeed]
    have : joinSep (str "\t") FEED_COLUMNS =
        str "id\ttitle\tdescription\tlink\timage_link\tavailability\tprice\tcondition\tbrand\tmpn\tproduct_type" := by
      decide
    rw [this]
  · intro s
    cases s with
    | nil => rfl
    | cons a s => simp [escapeTsvValue]
  · intro data config r hr
    rcases mem_tsvRows hr with ⟨it, rfl⟩
    exact newline_not_mem_tsvRowOf _

/-- C7 witness: the row-membership parts applied to `sampleData`: the
concrete emitted row carries no newline, and escaping preserves length on a
concrete string with a tab. -/
theorem claim_C7_witness :
    (('\n' : Char) ∉ tsvRowOf (toGoogleProduct sampleItem cfg0)) ∧
    (escapeTsvValue (some (str "a\tb"))).length = (str "a\tb").length :=
  ⟨claim_C7.2.2.2.2.2.2.2 sampleData cfg0 _ (by decide),
   claim_C7.2.2.2.1 (str "a\tb")⟩

/-! ## Claim C8: idempotence of the name normalisation -/

/-- The literal separator `" - "`. -/
def sepStr : Str := [' ', '-', ' ']

theorem splitDash_headD (v : Str) : (splitDash v).headD [] = firstSegment v := by
  induction v using splitDash.induct with
  | case1 tail ih => simp [splitDash, firstSegment]
  | case2 c rest hneg hnil ih =>
    rw [splitDash.eq_2 c rest hneg, firstSegment.eq_2 c rest hneg, hnil]
    rw [hnil] at ih
    simp only [List.headD_nil] at ih
    simp [← ih]
  | case3 c rest hneg s ss hcons ih =>
    rw [splitDash.eq_2 c rest hneg, firstSegment.eq_2 c rest hneg, hcons]
    rw [hcons] at ih
    simp only [List.headD_cons] at ih
    simp [ih]
  | case4 => rfl

theorem firstSegment_pre (u : Str) : firstSegment u <+: u := by
  induction u using firstSegment.induct with
  | case1 tail => rw [firstSegment.eq_1]; exact List.nil_prefix
  | case2 c rest hneg ih =>
    rw [firstSegment.eq_2 c rest hneg]
    exact List.cons_prefix_cons.2 ⟨rfl, ih⟩
  | case3 => exact List.nil_prefix

theorem sep_infix_of_pattern (tail : Str) :
    sepStr <:+: ' ' :: '-' :: ' ' :: tail := ⟨[], tail, rfl⟩

theorem firstSegment_eq_self (u : Str) (h : ¬sepStr <:+: u) :
    firstSegment u = u := by
  induction u using firstSegment.induct with
  | case1 tail => exact absurd (sep_infix_of_pattern tail) h
  | case2 c rest hneg ih =>
    rw [firstSegment.eq_2 c rest hneg, ih (fun hi => h (List.infix_cons hi))]
  | case3 => rfl

theorem firstSegment_no_sep (u : Str) : ¬sepStr <:+: firstSegment u := by
  induction u using firstSegment.induct with
  | case1 tail =>
    rw [firstSegment.eq_1, List.infix_nil]
    simp [sepStr]
  | case2 c rest hneg ih =>
    rw [firstSegment.eq_2 c rest hneg]
    intro hinf
    rcases List.infix_cons_iff.1 hinf with hpre | htail
    · rcases List.cons_prefix_cons.1 hpre with ⟨hc, hpre2⟩
      have hpre3 : ['-', ' '] <+: rest :=
        hpre2.trans (firstSegment_pre rest)
      rcases hpre3 with ⟨t, ht⟩
      exact hneg t hc.symm ht.symm
    · exact ih htail
  | case3 =>
    rw [firstSegment.eq_3, List.infix_nil]
    simp [sepStr]

theorem dropWhile_head?_not {p : Char → Bool} (l : Str) :
    ∀ a, (l.dropWhile p).head? = some a → p a = false := by
  induction l with
  | nil => intro a h; simp at h
  | cons c l ih =>
    intro a h
    rw [List.dropWhile_cons] at h
    split at h
    · exact ih a h
    · rename_i hc
      simp only [List.head?_cons, Option.some_inj] at h
      rw [← h]
      simp_all

theorem trimLeft_eq_self {s : Str}
    (h : ∀ a, s.head? = some a → isWS a = false) : trimLeft s = s := by
  cases s with
  | nil => rfl
  | cons c l =>
    have hc := h c rfl
    rw [trimLeft, List.dropWhile_cons, hc]
    simp

theorem trimRight_eq_self {s : Str}
    (h : ∀ a, s.getLast? = some a → isWS a = false) : trimRight s = s := by
  have h2 : ∀ a, s.reverse.head? = some a → isWS a = false := by
    intro a ha
    exact h a (by rwa [List.head?_reverse] at ha)
  have h3 := trimLeft_eq_self h2
  rw [trimLeft] at h3
  rw [trimRight, h3, List.reverse_reverse]

theorem trimRight_pre (s : Str) : trimRight s <+: s := by
  rw [trimRight]
  have h1 : s.reverse.dropWhile isWS <:+ s.reverse := List.dropWhile_suffix _
  have h2 := List.reverse_prefix.2 h1
  rwa [List.reverse_reverse] at h2

theorem trimLeft_suffix (s : Str) : trimLeft s <:+ s := List.dropWhile_suffix _

theorem trim_inf (s : Str) : trim s <:+: s := by
  rw [trim]
  exact ((trimRight_pre (trimLeft s)).isInfix).trans
    ((trimLeft_suffix s).isInfix)

theorem trim_head_not_ws (s : Str) :
    ∀ a, (trim s).head? = some a → isWS a = false := by
  intro a ha
  rw [trim] at ha
  rcases trimRight_pre (trimLeft s) with ⟨t, ht⟩
  have h2 : (trimLeft s).head? = some a := by
    rw [← ht, List.head?_append, ha]
    rfl
  rw [trimLeft] at h2
  exact dropWhile_head?_not s a h2

theorem trim_getLast_not_ws (s : Str) :
    ∀ a, (trim s).getLast? = some a → isWS a = false := by
  intro a ha
  rw [trim, trimRight, List.getLast?_reverse] at ha
  exact dropWhile_head?_not _ a ha

theorem trim_idem (s : Str) : trim (trim s) = trim s := by
  rw [show trim (trim s) = trimRight (trimLeft (trim s)) from rfl,
    trimLeft_eq_self (trim_head_not_ws s)]
  exact trimRight_eq_self (trim_getLast_not_ws s)

theorem char_toNat_ofNat {n : Nat} (h : n.isValidChar) :
    (Char.ofNat n).toNat = n := by
  rw [Char.ofNat, dif_pos h]
  rfl

theorem toLower_def (c : Char) : c.toLower =
    if c.toNat ≥ 65 ∧ c.toNat ≤ 90 then Char.ofNat (c.toNat + 32) else c := rfl

theorem toLower_toLower (c : Char) : c.toLower.toLower = c.toLower := by
  by_cases h : c.toNat ≥ 65 ∧ c.toNat ≤ 90
  · have hv : (c.toNat + 32).isValidChar := Or.inl (by omega)
    have ht : (Char.ofNat (c.toNat + 32)).toNat = c.toNat + 32 :=
      char_toNat_ofNat hv
    rw [toLower_def c, if_pos h, toLower_def, if_neg (by rw [ht]; omega)]
  · rw [toLower_def c, if_neg h, toLower_def c, if_neg h]

theorem toLower_eq_low {c ch : Char} (hch : ch.toNat < 65)
    (h : c.toLower = ch) : c = ch := by
  rw [toLower_def] at h
  by_cases hc : c.toNat ≥ 65 ∧ c.toNat ≤ 90
  · rw [if_pos hc] at h
    have hv : (c.toNat + 32).isValidChar := Or.inl (by omega)
    have ht : (Char.ofNat (c.toNat + 32)).toNat = c.toNat + 32 :=
      char_toNat_ofNat hv
    have h2 := congrArg Char.toNat h
    rw [ht] at h2
    omega
  · rwa [if_neg hc] at h

theorem isWS_toLower {c : Char} (h : isWS c.toLower = true) : isWS c = true := by
  unfold isWS at h ⊢
  simp only [Bool.or_eq_true, decide_eq_true_eq] at h ⊢
  obtain ((h | h) | h) | h := h
  · exact Or.inl (Or.inl (Or.inl (toLower_eq_low (by decide) h)))
  · exact Or.inl (Or.inl (Or.inr (toLower_eq_low (by decide) h)))
  · exact Or.inl (Or.inr (toLower_eq_low (by decide) h))
  · exact Or.inr (toLower_eq_low (by decide) h)

theorem sep_infix_map_toLower {l : Str}
    (h : sepStr <:+: l.map Char.toLower) : sepStr <:+: l := by
  rcases h with ⟨s, t, hst⟩
  obtain ⟨l12, l3, hl, h12, h3⟩ := List.map_eq_append_iff.1 hst.symm
  obtain ⟨l1, l2, hl2, h1, h2⟩ := List.map_eq_append_iff.1 h12
  rcases List.map_eq_cons_iff.1 h2 with ⟨a, l2a, rfl, ha, h2a⟩
  rcases List.map_eq_cons_iff.1 h2a with ⟨b, l2b, rfl, hb, h2b⟩
  rcases List.map_eq_cons_iff.1 h2b with ⟨d, l2d, rfl, hd, h2d⟩
  have h2nil : l2d = [] := List.map_eq_nil_iff.1 h2d
  have ha2 : a = ' ' := toLower_eq_low (by decide) ha
  have hb2 : b = '-' := toLower_eq_low (by decide) hb
  have hd2 : d = ' ' := toLower_eq_low (by decide) hd
  refine ⟨l1, l3, ?_⟩
  rw [hl, hl2]
  simp [sepStr, ha2, hb2, hd2, h2nil]

theorem dash_space_prefix_map {rest : Str}
    (h : ['-', ' '] <+: rest.map Char.toLower) :
    ∃ t, rest = '-' :: ' ' :: t := by
  rcases h with ⟨u, hu⟩
  rcases List.map_eq_cons_iff.1 hu.symm with ⟨b, rb, rfl, hb, hub⟩
  rcases List.map_eq_cons_iff.1 hub with ⟨d, rd, rfl, hd, hud⟩
  exact ⟨rd, by
    rw [toLower_eq_low (by decide) hb, toLower_eq_low (by decide) hd]⟩

theorem extractBaseName_eq (v : Str) :
    extractBaseName v =
      if trim (firstSegment v) = (trim (firstSegment v)).map Char.toUpper ∧
          1 < (trim (firstSegment v)).length then
        sentenceCase (trim (firstSegment v))
      else trim (firstSegment v) := by
  simp only [extractBaseName]
  rw [splitDash_headD]

theorem sentenceCase_idem (b : Str) :
    sentenceCase (sentenceCase b) = sentenceCase b := by
  cases b with
  | nil => rfl
  | cons c t =>
    show c :: (t.map Char.toLower).map Char.toLower = c :: t.map Char.toLower
    rw [List.map_map]
    congr 1
    apply List.map_congr_left
    intro a _
    exact toLower_toLower a

theorem extractBaseName_fix {r : Str}
    (hnosep : ¬sepStr <:+: r)
    (hhead : ∀ a, r.head? = some a → isWS a = false)
    (hlast : ∀ a, r.getLast? = some a → isWS a = false)
    (hsc : sentenceCase r = r ∨ ¬(r = r.map Char.toUpper ∧ 1 < r.length)) :
    extractBaseName r = r := by
  rw [extractBaseName_eq r, firstSegment_eq_self r hnosep]
  have htr : trim r = r := by
    rw [show trim r = trimRight (trimLeft r) from rfl, trimLeft_eq_self hhead]
    exact trimRight_eq_self hlast
  rw [htr]
  rcases hsc with hsc | hsc
  · split
    · exact hsc
    · rfl
  · rw [if_neg hsc]

/-- C8: the name normalisation is idempotent: applying `extractBaseName`
twice gives the same result as applying it once, for every input string. -/
theorem claim_C8 (x : Str) :
    extractBaseName (extractBaseName x) = extractBaseName x := by
  have hb_nosep : ¬sepStr <:+: trim (firstSegment x) :=
    fun hi => firstSegment_no_sep x (hi.trans (trim_inf (firstSegment x)))
  have hb_head := trim_head_not_ws (firstSegment x)
  have hb_last := trim_getLast_not_ws (firstSegment x)
  rw [extractBaseName_eq x]
  by_cases hcond : trim (firstSegment x) =
      (trim (firstSegment x)).map Char.toUpper ∧
      1 < (trim (firstSegment x)).length
  · rw [if_pos hcond]
    rcases hbs : trim (firstSegment x) with _ | ⟨c, rest⟩
    · rw [hbs] at hcond
      simp at hcond
    · rw [hbs] at hcond hb_nosep hb_head hb_last
      have hrest_ne : rest ≠ [] := by
        intro h
        rw [h] at hcond
        simp at hcond
      apply extractBaseName_fix
      · show ¬sepStr <:+: sentenceCase (c :: rest)
        intro hinf
        rw [show sentenceCase (c :: rest) = c :: rest.map Char.toLower
          from rfl] at hinf
        rcases List.infix_cons_iff.1 hinf with hpre | htail
        · rcases List.cons_prefix_cons.1 hpre with ⟨hc, hpre2⟩
          rcases dash_space_prefix_map hpre2 with ⟨t, ht⟩
          apply hb_nosep
          rw [ht, ← hc]
          exact sep_infix_of_pattern t
        · exact hb_nosep (List.infix_cons (sep_infix_map_toLower htail))
      · intro a ha
        rw [show sentenceCase (c :: rest) = c :: rest.map Char.toLower
          from rfl] at ha
        simp only [List.head?_cons, Option.some_inj] at ha
        exact hb_head a (by simp [← ha])
      · intro a ha
        rcases hm : rest.map Char.toLower with _ | ⟨m0, ms⟩
        · exact absurd (List.map_eq_nil_iff.1 hm) hrest_ne
        · rw [show sentenceCase (c :: rest) = c :: rest.map Char.toLower
            from rfl, hm, List.getLast?_cons_cons, ← hm,
            List.getLast?_map] at ha
          rcases hrl : rest.getLast? with _ | g
          · rw [hrl] at ha
            simp at ha
          · rw [hrl] at ha
            simp only [Option.map_some', Option.some_inj] at ha
            have hg : isWS g = false := by
              apply hb_last
              rcases hre : rest with _ | ⟨r0, rs⟩
              · exact absurd hre hrest_ne
              · rw [List.getLast?_cons_cons, ← hre, hrl]
            rw [← ha]
            cases hws : isWS (Char.toLower g)
            · rfl
            · exact absurd (isWS_toLower hws) (by rw [hg]; simp)
      · exact Or.inl (sentenceCase_idem _)
  · rw [if_neg hcond]
    exact extractBaseName_fix hb_nosep hb_head hb_last (Or.inr hcond)
